import Mathlib

/-!
Verification of the CArchive codec (src/archive.c).

The archive format, the encoder `pack`, the decoder `unpack`, the helper
`next_block` and the directory-creation helper `mkpath` are shallowly
embedded below.  Bytes are modelled as `Char` (the program only moves raw
bytes; every byte read or written is preserved verbatim), byte streams as
`List Char`.  The process-global working directory, which both the encoder
and the decoder mutate via `chdir`, is modelled as a pair
`(levels above the starting directory, path of directory names below that)`;
the on-disk filesystem produced by the decoder is an association list from
such resolved paths to nodes (directory, or file with its content bytes).
-/

/-- A byte string (file name or payload), as the C code sees it. -/
abbrev Name := List Char

/-- The NUL byte that terminates C strings. -/
def nul : Char := Char.ofNat 0

/-- Bytes of `s` up to (excluding) the first NUL: what `strlen`-based C code
sees of the buffer `s`. -/
def cstr (s : List Char) : List Char := s.takeWhile (fun c => c ≠ nul)

/-- Splits a path at every `'/'` byte, keeping empty pieces; inverse of
joining with `'/'`.  `splitSlash "a/b/" = [['a'], ['b'], []]`. -/
def splitSlash : List Char → List Name
  | [] => [[]]
  | c :: cs =>
    if c = '/' then [] :: splitSlash cs
    else
      match splitSlash cs with
      | [] => [[c]]
      | p :: ps => (c :: p) :: ps

/-- A resolved path: how many `chdir("..")` levels above the starting
working directory, and the directory names below that point.  Two distinct
keys denote two distinct on-disk paths (no symlinks are modelled, matching
the program's scope). -/
abbrev Key := Nat × List Name

/-- One on-disk object created by the decoder. -/
inductive Node where
  | dir : Node
  | file : List Char → Node
deriving DecidableEq

/-- The decoder's view of the destination filesystem. -/
abbrev FSL := List (Key × Node)

/-- Looks a path up in the filesystem (models `stat`). -/
def fsGet : FSL → Key → Option Node
  | [], _ => none
  | (k, n) :: rest, key => if k = key then some n else fsGet rest key

/-- Creates or replaces the object at a path (models `mkdir` / `fopen(_, "w")`). -/
def fsSet : FSL → Key → Node → FSL
  | [], k, n => [(k, n)]
  | (k', n') :: rest, k, n =>
    if k' = k then (k, n) :: rest else (k', n') :: fsSet rest k n

/-- `chdir("..")`: above the starting directory the parent chain continues,
so ascending from the start is recorded by bumping the first component. -/
def upDir : Key → Key
  | (a, []) => (a + 1, [])
  | (a, s) => (a, s.dropLast)

/-- One path component of a `chdir` argument.  `"."` and `".."` components
resolve the POSIX way; other names descend.  (Relative paths only: the
program never passes absolute paths from its own recursion.) -/
def intoComp (p : Key) (c : Name) : Key :=
  if c = ['.', '.'] then upDir p
  else if c = ['.'] then p
  else (p.1, p.2 ++ [c])

/-- `chdir(fn)` for a relative path `fn`: empty components (double or
trailing slashes) are skipped, the rest resolve in order. -/
def intoPath (p : Key) (fn : Name) : Key :=
  ((splitSlash fn).filter (fun c => c ≠ [])).foldl intoComp p

/-- Decimal digit characters, by value.  (`r` is taken modulo nothing:
callers pass `r < 10`.) -/
def digitChar (r : Nat) : Char :=
  if r = 0 then '0' else if r = 1 then '1' else if r = 2 then '2'
  else if r = 3 then '3' else if r = 4 then '4' else if r = 5 then '5'
  else if r = 6 then '6' else if r = 7 then '7' else if r = 8 then '8'
  else '9'

/-- Decimal digits of `n`, least significant first; the first argument is
fuel (`n` itself always suffices), keeping the recursion structural so that
terms evaluate inside the kernel. -/
def decRevDigitsF : Nat → Nat → List Char
  | 0, _ => []
  | _ + 1, 0 => []
  | f + 1, n + 1 => digitChar ((n + 1) % 10) :: decRevDigitsF f ((n + 1) / 10)

/-- The decimal rendering of `n`, as `fprintf("%ld", n)` produces it. -/
def decToString (n : Nat) : List Char :=
  if n = 0 then ['0'] else (decRevDigitsF n n).reverse

/-- The digit-accumulating loop of `atoi`: consumes leading decimal digits,
stops at the first non-digit (including NUL). -/
def atoiGo : Nat → List Char → Nat
  | acc, [] => acc
  | acc, c :: cs => if c.isDigit then atoiGo (acc * 10 + (c.toNat - 48)) cs else acc

/-- `atoi` on the buffer just filled by `next_block` (the buffers the
program passes hold the digits of a length field; signs and leading blanks
never occur in them). -/
def atoi (s : List Char) : Nat := atoiGo 0 s

/-- The read loop of `next_block` (src/archive.c:57-64): reads bytes until
the delimiter, end of input, or `max_reads` bytes, whichever comes first.
Returns the bytes stored in `output` (before the NUL terminator) and the
unread remainder of the input.  A delimiter byte is consumed but not
stored; hitting the `max_reads` bound consumes nothing further. -/
def nbGo (delim : Char) : Nat → List Char → List Char × List Char
  | 0, input => ([], input)
  | _ + 1, [] => ([], [])
  | m + 1, c :: cs =>
    if c = delim then ([], cs)
    else
      let (o, r) := nbGo delim m cs
      (c :: o, r)

/-- `next_block(fp, output, delim, max_reads)` as a function of the input
stream: the bytes written to `output` and the remaining stream. -/
def next_block (input : List Char) (delim : Char) (max_reads : Nat) :
    List Char × List Char :=
  nbGo delim max_reads input

/-- The indices of `output[]` written by one `next_block` call (payload
writes `output[i++]` followed by the terminator write `output[i]`), starting
from index `i`.  The destination buffers in `unpack` have 255 bytes, so any
index `≥ 255` here is an out-of-bounds write. -/
def nbWritesGo (delim : Char) (max_reads : Nat) : List Char → Nat → List Nat
  | [], i => [i]
  | c :: cs, i =>
    if i < max_reads then
      if c = delim then [i] else i :: nbWritesGo delim max_reads cs (i + 1)
    else [i]

/-- All buffer indices written by `next_block(fp, output, delim, max_reads)`
when the unread input is `input`. -/
def nbWrites (input : List Char) (delim : Char) (max_reads : Nat) : List Nat :=
  nbWritesGo delim max_reads input 0

/-- `mkpath` (src/archive.c:26-47), walking the components of the path in
place of the byte positions of its `'/'` separators: for the prefix ending
at each `'/'`, a missing component is created with `mkdir` (whose possible
failure the oracle `mkOk` decides), an existing directory is passed
through, and an existing non-directory aborts with `-1` (`none`).  `base`
is the working directory against which the relative path resolves. -/
def mkpathGo (mkOk : Key → Bool) (base : Key) :
    FSL → List Name → List Name → Option FSL
  | fs, _, [] => some fs
  | fs, acc, c :: rest =>
    let acc' := acc ++ [c]
    let k : Key := (base.1, base.2 ++ acc')
    match fsGet fs k with
    | none => if mkOk k then mkpathGo mkOk base (fsSet fs k .dir) acc' rest else none
    | some .dir => mkpathGo mkOk base fs acc' rest
    | some (.file _) => none

/-- `mkpath(pathname, mode)` relative to working directory `base`:
the prefixes ending at a `'/'` are exactly the proper component prefixes of
`splitSlash pathname`. -/
def mkpath (mkOk : Key → Bool) (fs : FSL) (base : Key) (pathname : Name) :
    Option FSL :=
  mkpathGo mkOk base fs [] (splitSlash pathname).dropLast

/-- The decoder's state: filesystem written so far, working directory, and
the `depth` counter of `unpack` (a C `int`, so it may go negative). -/
structure UState where
  fs : FSL
  cwd : Key
  depth : Int
deriving DecidableEq

/-- The state `unpack(fp, 1)` starts from (as called by `main`): nothing
created yet, working directory at the destination root, depth 1. -/
def initState : UState := { fs := [], cwd := (0, []), depth := 1 }

/-- One iteration of the frame loop of `unpack` (src/archive.c:141-174):
read a length field, read the name, and branch on sentinel / directory /
file.  `none` models the fatal `err()` abort when `mkpath` fails (a path
component exists as a non-directory; `mkdir` itself is modelled as
succeeding on absent paths).  Returns the unread input and the new state. -/
def unpackStep (input : List Char) (st : UState) : Option (List Char × UState) :=
  let p1 := next_block input ':' 255
  let fn_length := atoi p1.1
  let p2 := next_block p1.2 ':' fn_length
  let fn := cstr p2.1
  if fn_length = 0 then
    some (p2.2, { st with cwd := upDir st.cwd, depth := st.depth - 1 })
  else if fn.getLast? = some '/' then
    match mkpath (fun _ => true) st.fs st.cwd fn with
    | none => none
    | some fs' =>
      some (p2.2, { fs := fs', cwd := intoPath st.cwd fn, depth := st.depth + 1 })
  else
    let p3 := next_block p2.2 ':' 255
    let file_length := atoi p3.1
    some (p3.2.drop file_length,
      { st with
        fs := fsSet st.fs (st.cwd.1, st.cwd.2 ++ [fn]) (.file (p3.2.take file_length)) })

/-- Result of a full `unpack` run: normal return, or the fatal `err()`
exit on a `mkpath` failure. -/
inductive URes where
  | ok : UState → URes
  | fail : URes
deriving DecidableEq

/-- The frame loop of `unpack`, with fuel (the loop itself is unbounded;
`c9_unpack_terminates` shows `input.length + 1` fuel always suffices).
After each frame the loop peeks one byte and exits at end of input. -/
def unpackLoopF : Nat → List Char → UState → Option URes
  | 0, _, _ => none
  | fuel + 1, input, st =>
    match unpackStep input st with
    | none => some .fail
    | some (input', st') =>
      if input' = [] then some (.ok st') else unpackLoopF fuel input' st'

/-- `unpackStep` iterated `n` times with no end-of-input check, for
reasoning about a fixed number of frames. -/
def runSteps : Nat → List Char → UState → Option (List Char × UState)
  | 0, input, st => some (input, st)
  | n + 1, input, st =>
    match unpackStep input st with
    | none => none
    | some (input', st') => runSteps n input' st'

/-!
The encoder's input: the filesystem tree that `pack` walks.  A mutual
inductive (rather than a nested `List`) keeps every recursive definition
structural, so concrete instances evaluate inside the kernel.  An `Entry`
is an object named by the argument `fn` of one `pack` call: a regular file
with its content bytes, a directory with its children in `readdir` order,
or anything else (symlink, device, socket, FIFO) which `pack` skips with a
warning.
-/

mutual
inductive Entry where
  | file : Name → List Char → Entry
  | dir : Name → Forest → Entry
  | other : Name → Entry
inductive Forest where
  | nil : Forest
  | cons : Entry → Forest → Forest
end

/-- Appending two sibling sequences. -/
def Forest.append : Forest → Forest → Forest
  | .nil, ts => ts
  | .cons e es, ts => .cons e (Forest.append es ts)

/-- The name a tree entry was packed under. -/
def nameOf : Entry → Name
  | .file n _ => n
  | .dir n _ => n
  | .other n => n

/-- The names of the immediate children, in traversal order. -/
def namesF : Forest → List Name
  | .nil => []
  | .cons e es => nameOf e :: namesF es

mutual
/-- The archive bytes `pack` emits for one entry (src/archive.c:72-125):
`"%ld:%s/"` with length `strlen(fn)+1` for a directory, followed by its
children and the `"0:"` sentinel; `"%ld:%s%ld:"` and the raw content for a
regular file; nothing for anything else. -/
def packEntry : Entry → List Char
  | .file n c => decToString n.length ++ ':' :: (n ++ (decToString c.length ++ ':' :: c))
  | .dir n cs =>
    decToString (n.length + 1) ++ ':' :: (n ++ '/' :: (packForest cs ++ ['0', ':']))
  | .other _ => []
/-- The archive bytes for a sequence of sibling entries (the `readdir`
loop, or the `argv` loop of `main`). -/
def packForest : Forest → List Char
  | .nil => []
  | .cons e es => packEntry e ++ packForest es
end

mutual
/-- How many frames (name frames and sentinels) `pack` emits for an entry. -/
def nframesE : Entry → Nat
  | .file _ _ => 1
  | .dir _ cs => 1 + nframesF cs + 1
  | .other _ => 0
/-- Frame count for a sibling sequence. -/
def nframesF : Forest → Nat
  | .nil => 0
  | .cons e es => nframesE e + nframesF es
end

mutual
/-- The warnings `pack` prints to stderr, by skipped entry name
(src/archive.c:123: `Skipping non-regular file ...`). -/
def packWarnE : Entry → List Name
  | .file _ _ => []
  | .dir _ cs => packWarnF cs
  | .other n => [n]
/-- Warnings over a sibling sequence. -/
def packWarnF : Forest → List Name
  | .nil => []
  | .cons e es => packWarnE e ++ packWarnF es
end

mutual
/-- The working directory after `pack(fn, ...)` returns, starting from `p`:
a directory does `chdir(fn)`, packs its children in order, then
`chdir("..")` (src/archive.c:90-97); files and skipped entries leave the
working directory alone. -/
def packCwdE : Entry → Key → Key
  | .file _ _, p => p
  | .other _, p => p
  | .dir n cs, p => upDir (packCwdF cs (intoPath p n))
/-- Working directory after packing a sibling sequence in order. -/
def packCwdF : Forest → Key → Key
  | .nil, p => p
  | .cons e es, p => packCwdF es (packCwdE e p)
end

mutual
/-- The on-disk objects entry `e` describes, keyed by resolved path under
`k`, in traversal order.  Skipped entries contribute nothing. -/
def entriesE (k : Key) : Entry → FSL
  | .file n c => [((k.1, k.2 ++ [n]), .file c)]
  | .dir n cs => ((k.1, k.2 ++ [n]), .dir) :: entriesF (k.1, k.2 ++ [n]) cs
  | .other _ => []
/-- On-disk objects of a sibling sequence under `k`. -/
def entriesF (k : Key) : Forest → FSL
  | .nil => []
  | .cons e es => entriesE k e ++ entriesF k es
end

/-- Well-formedness of one name as a real filesystem name packed by the
program: nonempty, within the NAME_MAX bound (with room for the trailing
`'/'` of a directory frame and the NUL terminator in the decoder's 255-byte
buffer), free of `'/'` and NUL (the kernel forbids them in names), free of
the frame delimiter `':'`, and not one of the pseudo-entries `"."`, `".."`
that `pack` explicitly skips. -/
def wfName (n : Name) : Bool :=
  decide (n ≠ [] ∧ n.length ≤ 253 ∧ ':' ∉ n ∧ '/' ∉ n ∧ nul ∉ n ∧
    n ≠ ['.'] ∧ n ≠ ['.', '.'])

mutual
/-- Well-formed tree: every name well formed, file sizes within the range
of `off_t` (so their decimal rendering fits a length field), and sibling
names pairwise distinct, as `readdir` guarantees. -/
def wfE : Entry → Bool
  | .file n c => wfName n && decide (c.length < 2 ^ 63)
  | .dir n cs => wfName n && wfF cs
  | .other _ => true
/-- Well-formed sibling sequence. -/
def wfF : Forest → Bool
  | .nil => true
  | .cons e es => wfE e && wfF es && decide (nameOf e ∉ namesF es)
end

mutual
/-- `true` when the tree contains only regular files and directories. -/
def noOtherE : Entry → Bool
  | .file _ _ => true
  | .dir _ cs => noOtherF cs
  | .other _ => false
/-- `noOtherE` over a sibling sequence. -/
def noOtherF : Forest → Bool
  | .nil => true
  | .cons e es => noOtherE e && noOtherF es
end

mutual
/-- Names appearing in `chdir` position during `pack`: for the working
directory push/pop discipline only directory names matter.  Requires each
directory name to be a single relative path component, as every recursive
call's name (a `readdir` entry) is. -/
def argOkE : Entry → Bool
  | .file _ _ => true
  | .other _ => true
  | .dir n cs => decide (n ≠ [] ∧ '/' ∉ n ∧ n ≠ ['.'] ∧ n ≠ ['.', '.']) && argOkF cs
/-- `argOkE` over a sibling sequence. -/
def argOkF : Forest → Bool
  | .nil => true
  | .cons e es => argOkE e && argOkF es
end

/-- One frame of the archive as the encoder classifies it: a file name
frame or directory name frame with its declared decimal length, or the
end-of-directory sentinel. -/
inductive FrameTag where
  | fileT : Nat → FrameTag
  | dirT : Nat → FrameTag
  | sentT : FrameTag
deriving DecidableEq

/-- The declared length written in front of a frame's name (0 for the
sentinel). -/
def declOf : FrameTag → Nat
  | .fileT l => l
  | .dirT l => l
  | .sentT => 0

/-- Directory-frame test. -/
def isDirT : FrameTag → Bool
  | .dirT _ => true
  | _ => false

/-- Sentinel-frame test. -/
def isSentT : FrameTag → Bool
  | .sentT => true
  | _ => false

mutual
/-- The sequence of frames `pack` emits for an entry, as tags. -/
def frameTagsE : Entry → List FrameTag
  | .file n _ => [.fileT n.length]
  | .dir n cs => .dirT (n.length + 1) :: (frameTagsF cs ++ [.sentT])
  | .other _ => []
/-- Frame tags over a sibling sequence. -/
def frameTagsF : Forest → List FrameTag
  | .nil => []
  | .cons e es => frameTagsE e ++ frameTagsF es
end

/-- The decoder's frame scanner: walks a byte stream by exactly the parsing
rules of the `unpack` loop (length field, name of at most that declared
length, then for a file frame a second length field and that many payload
bytes) and records each frame's declared name length.  Used to state that
the length-zero test discriminates frames unambiguously. -/
def scanFrames : Nat → List Char → List Nat
  | 0, _ => []
  | _ + 1, [] => []
  | f + 1, input =>
    let p1 := next_block input ':' 255
    let fnl := atoi p1.1
    let p2 := next_block p1.2 ':' fnl
    let fn := cstr p2.1
    if fnl = 0 then fnl :: scanFrames f p2.2
    else if fn.getLast? = some '/' then fnl :: scanFrames f p2.2
    else
      let p3 := next_block p2.2 ':' 255
      fnl :: scanFrames f (p3.2.drop (atoi p3.1))

/-! Small list facts used throughout. -/

lemma append_ne_nil_left {α : Type} (a b : List α) (h : a ≠ []) : a ++ b ≠ [] := by
  cases a with
  | nil => exact absurd rfl h
  | cons x xs => simp

lemma take_len_append {α : Type} (a b : List α) : (a ++ b).take a.length = a := by
  induction a with
  | nil => simp
  | cons x xs ih => simp [ih]

lemma drop_len_append {α : Type} (a b : List α) : (a ++ b).drop a.length = b := by
  induction a with
  | nil => simp
  | cons x xs ih => simp [ih]

lemma upDir_concat (a : Nat) (s : List Name) (n : Name) :
    upDir (a, s ++ [n]) = (a, s) := by
  cases h : s ++ [n] with
  | nil => exact absurd h (by simp)
  | cons x xs =>
    have h2 : upDir (a, x :: xs) = (a, (x :: xs).dropLast) := rfl
    rw [h2, ← h, List.dropLast_concat]

/-! Decimal rendering and `atoi`. -/

lemma digitChar_spec (r : Nat) (h : r < 10) :
    (digitChar r).isDigit = true ∧ (digitChar r).toNat - 48 = r ∧
    digitChar r ≠ ':' ∧ digitChar r ≠ '/' ∧ digitChar r ≠ nul := by
  interval_cases r <;> exact ⟨by decide, by decide, by decide, by decide, by decide⟩

lemma atoiGo_append (xs ys : List Char) (hd : ∀ c ∈ xs, c.isDigit = true) :
    ∀ acc, atoiGo acc (xs ++ ys) = atoiGo (atoiGo acc xs) ys := by
  induction xs with
  | nil => intro acc; rfl
  | cons x xs ih =>
    intro acc
    have hx : x.isDigit = true := hd x (by simp)
    have hxs : ∀ c ∈ xs, c.isDigit = true := fun c hc => hd c (by simp [hc])
    simp only [List.cons_append, atoiGo, hx, if_pos]
    exact ih hxs _

lemma drdF_spec (f : Nat) : ∀ n, n ≤ f →
    (∀ c ∈ decRevDigitsF f n, c.isDigit = true ∧ c ≠ ':' ∧ c ≠ '/' ∧ c ≠ nul) ∧
    (∀ acc, atoiGo acc (decRevDigitsF f n).reverse
      = acc * 10 ^ (decRevDigitsF f n).length + n) ∧
    (0 < n → decRevDigitsF f n ≠ []) ∧
    (∀ k, n < 10 ^ k → (decRevDigitsF f n).length ≤ k) := by
  induction f with
  | zero =>
    intro n hn
    have h0 : n = 0 := Nat.le_zero.mp hn
    subst h0
    refine ⟨by simp [decRevDigitsF], by intro acc; simp [decRevDigitsF, atoiGo], by simp, ?_⟩
    intro k _; simp [decRevDigitsF]
  | succ f ih =>
    intro n hn
    cases n with
    | zero =>
      refine ⟨by simp [decRevDigitsF], by intro acc; simp [decRevDigitsF, atoiGo], by simp, ?_⟩
      intro k _; simp [decRevDigitsF]
    | succ m =>
      have hq : (m + 1) / 10 ≤ f := by
        have h1 : (m + 1) / 10 < m + 1 := Nat.div_lt_self (Nat.succ_pos m) (by norm_num)
        omega
      obtain ⟨ihm, iha, _, ihl⟩ := ih ((m + 1) / 10) hq
      have hdig := digitChar_spec ((m + 1) % 10) (Nat.mod_lt _ (by norm_num))
      have hunfold : decRevDigitsF (f + 1) (m + 1)
          = digitChar ((m + 1) % 10) :: decRevDigitsF f ((m + 1) / 10) := rfl
      refine ⟨?_, ?_, ?_, ?_⟩
      · intro c hc
        rw [hunfold] at hc
        rcases List.mem_cons.mp hc with h | h
        · subst h; exact ⟨hdig.1, hdig.2.2.1, hdig.2.2.2.1, hdig.2.2.2.2⟩
        · exact ihm c h
      · intro acc
        rw [hunfold, List.reverse_cons,
          atoiGo_append _ _ (fun c hc => (ihm c (List.mem_reverse.mp hc)).1), iha]
        have : atoiGo (acc * 10 ^ (decRevDigitsF f ((m + 1) / 10)).length + (m + 1) / 10)
            [digitChar ((m + 1) % 10)]
            = (acc * 10 ^ (decRevDigitsF f ((m + 1) / 10)).length + (m + 1) / 10) * 10
              + (m + 1) % 10 := by
          simp [atoiGo, hdig.1, hdig.2.1]
        rw [this]
        have hmod : 10 * ((m + 1) / 10) + (m + 1) % 10 = m + 1 := Nat.div_add_mod (m + 1) 10
        simp only [List.length_cons, pow_succ]
        ring_nf
        omega
      · intro _; rw [hunfold]; simp
      · intro k hk
        have hk1 : 1 ≤ k := by
          by_contra hcon
          have : k = 0 := by omega
          subst this
          simp at hk
        obtain ⟨j, hj⟩ : ∃ j, k = j + 1 := ⟨k - 1, by omega⟩
        subst hj
        have hqk : (m + 1) / 10 < 10 ^ j := by
          rw [Nat.div_lt_iff_lt_mul (by norm_num : (0:Nat) < 10)]
          calc m + 1 < 10 ^ (j + 1) := hk
          _ = 10 ^ j * 10 := by rw [pow_succ]
        rw [hunfold]
        simpa using ihl j hqk

lemma decToString_digits (n : Nat) :
    ∀ c ∈ decToString n, c.isDigit = true ∧ c ≠ ':' ∧ c ≠ '/' ∧ c ≠ nul := by
  by_cases h : n = 0
  · subst h; intro c hc; simp [decToString] at hc; subst hc
    exact ⟨by decide, by decide, by decide, by decide⟩
  · intro c hc
    simp only [decToString, if_neg h] at hc
    exact (drdF_spec n n le_rfl).1 c (List.mem_reverse.mp hc)

lemma decToString_ne_nil (n : Nat) : decToString n ≠ [] := by
  by_cases h : n = 0
  · subst h; simp [decToString]
  · simp only [decToString, if_neg h]
    intro hcon
    exact (drdF_spec n n le_rfl).2.2.1 (Nat.pos_of_ne_zero h) (by simpa using hcon)

lemma atoi_decToString (n : Nat) : atoi (decToString n) = n := by
  by_cases h : n = 0
  · subst h; decide
  · simp only [atoi, decToString, if_neg h]
    rw [(drdF_spec n n le_rfl).2.1 0]
    simp

lemma decToString_length_le (n k : Nat) (hk : 0 < k) (h : n < 10 ^ k) :
    (decToString n).length ≤ k := by
  by_cases h0 : n = 0
  · subst h0; simpa [decToString] using hk
  · simp only [decToString, if_neg h0, List.length_reverse]
    exact (drdF_spec n n le_rfl).2.2.2 k h

/-! Behaviour of `next_block` on the streams the codec produces. -/

lemma nbGo_delim (delim : Char) (s : List Char) (hs : ∀ c ∈ s, c ≠ delim) :
    ∀ max tail, s.length < max →
      nbGo delim max (s ++ delim :: tail) = (s, tail) := by
  induction s with
  | nil =>
    intro max tail hmax
    obtain ⟨m, rfl⟩ : ∃ m, max = m + 1 := ⟨max - 1, by omega⟩
    simp [nbGo]
  | cons c cs ih =>
    intro max tail hmax
    obtain ⟨m, rfl⟩ : ∃ m, max = m + 1 := ⟨max - 1, by omega⟩
    have hc : c ≠ delim := hs c (by simp)
    have hcs : ∀ x ∈ cs, x ≠ delim := fun x hx => hs x (by simp [hx])
    simp only [List.cons_append, nbGo, if_neg hc, List.append_eq]
    rw [ih hcs m tail (by simpa using Nat.lt_of_succ_lt_succ hmax)]

lemma nbGo_exact (delim : Char) (s : List Char) (hs : ∀ c ∈ s, c ≠ delim) :
    ∀ tail, nbGo delim s.length (s ++ tail) = (s, tail) := by
  induction s with
  | nil => intro tail; rfl
  | cons c cs ih =>
    intro tail
    have hc : c ≠ delim := hs c (by simp)
    have hcs : ∀ x ∈ cs, x ≠ delim := fun x hx => hs x (by simp [hx])
    simp only [List.length_cons, List.cons_append, nbGo, if_neg hc, List.append_eq]
    rw [ih hcs tail]

lemma nbGo_nil (delim : Char) (max : Nat) : nbGo delim max [] = ([], []) := by
  cases max <;> rfl

lemma nbGo_zero (delim : Char) (input : List Char) : nbGo delim 0 input = ([], input) := rfl

lemma nbGo_len_le (delim : Char) :
    ∀ max input, (nbGo delim max input).2.length ≤ input.length := by
  intro max
  induction max with
  | zero => intro input; simp [nbGo]
  | succ m ih =>
    intro input
    cases input with
    | nil => simp [nbGo]
    | cons c cs =>
      by_cases hc : c = delim
      · simp [nbGo, hc]
      · simp only [nbGo, if_neg hc, List.length_cons]
        exact Nat.le_succ_of_le (ih cs)

lemma nbGo_len_lt (delim : Char) (max : Nat) (input : List Char)
    (hin : input ≠ []) (hmax : 0 < max) :
    (nbGo delim max input).2.length < input.length := by
  obtain ⟨m, rfl⟩ : ∃ m, max = m + 1 := ⟨max - 1, by omega⟩
  cases input with
  | nil => exact absurd rfl hin
  | cons c cs =>
    by_cases hc : c = delim
    · simp [nbGo, hc]
    · simp only [nbGo, if_neg hc, List.length_cons]
      exact Nat.lt_succ_of_le (nbGo_len_le delim m cs)

/-- The length-field read: `next_block(fp, buff, ':', NAME_MAX)` on a stream
starting with the decimal rendering of `m` and its `':'` delimiter consumes
exactly that field, and `atoi` recovers `m`. -/
lemma read_length_field (m : Nat) (tail : List Char) (hm : m < 10 ^ 19) :
    next_block (decToString m ++ ':' :: tail) ':' 255 = (decToString m, tail) := by
  unfold next_block
  refine nbGo_delim ':' _ (fun c hc => (decToString_digits m c hc).2.1) 255 tail ?_
  have := decToString_length_le m 19 (by norm_num) hm
  omega

/-- Reading a name whose declared length equals its byte count and which is
free of the delimiter consumes exactly the name. -/
lemma read_name (s tail : List Char) (hs : ∀ c ∈ s, c ≠ ':') :
    next_block (s ++ tail) ':' s.length = (s, tail) :=
  nbGo_exact ':' s hs tail

/-! Facts extracted from `wfName`. -/

lemma wfName_spec (n : Name) (h : wfName n = true) :
    n ≠ [] ∧ n.length ≤ 253 ∧ ':' ∉ n ∧ '/' ∉ n ∧ nul ∉ n ∧
      n ≠ ['.'] ∧ n ≠ ['.', '.'] :=
  of_decide_eq_true h

lemma cstr_of_no_nul (s : List Char) (h : nul ∉ s) : cstr s = s := by
  induction s with
  | nil => rfl
  | cons c cs ih =>
    have hc : c ≠ nul := fun hcon => h (by simp [hcon])
    have hcs : nul ∉ cs := fun hcon => h (by simp [hcon])
    simp [cstr, hc, List.takeWhile_cons]
    simpa [cstr] using ih hcs

lemma getLast?_ne_slash (n : Name) (hsl : '/' ∉ n) :
    n.getLast? ≠ some '/' := by
  intro hcon
  exact hsl (List.mem_of_mem_getLast? hcon)

lemma splitSlash_no_slash (s : List Char) (h : '/' ∉ s) : splitSlash s = [s] := by
  induction s with
  | nil => rfl
  | cons c cs ih =>
    have hc : c ≠ '/' := fun hcon => h (by simp [hcon])
    have hcs : '/' ∉ cs := fun hcon => h (by simp [hcon])
    simp only [splitSlash, if_neg hc, ih hcs]

lemma splitSlash_concat_slash (s : List Char) (h : '/' ∉ s) :
    splitSlash (s ++ ['/']) = [s, []] := by
  induction s with
  | nil => rfl
  | cons c cs ih =>
    have hc : c ≠ '/' := fun hcon => h (by simp [hcon])
    have hcs : '/' ∉ cs := fun hcon => h (by simp [hcon])
    simp only [List.cons_append, splitSlash, if_neg hc, List.append_eq, ih hcs]

/-- `chdir` into a single well-formed directory name (with its trailing
slash, as the decoder receives it) pushes exactly that name. -/
lemma intoPath_single_slash (p : Key) (n : Name) (hw : wfName n = true) :
    intoPath p (n ++ ['/']) = (p.1, p.2 ++ [n]) := by
  obtain ⟨hnil, _, _, hsl, _, hdot, hdotdot⟩ := wfName_spec n hw
  unfold intoPath
  rw [splitSlash_concat_slash n hsl]
  have hfil : List.filter (fun c => decide (c ≠ [])) [n, []] = [n] := by
    simp [List.filter_cons, hnil]
  rw [hfil]
  simp [List.foldl, intoComp, hdot, hdotdot]

/-- `chdir` into a single well-formed directory name without a trailing
slash (the encoder's `chdir(fn)` on a `readdir` name) pushes that name. -/
lemma intoPath_single (p : Key) (n : Name)
    (hnil : n ≠ []) (hsl : '/' ∉ n) (hdot : n ≠ ['.']) (hdotdot : n ≠ ['.', '.']) :
    intoPath p n = (p.1, p.2 ++ [n]) := by
  unfold intoPath
  rw [splitSlash_no_slash n hsl]
  have hfil : List.filter (fun c => decide (c ≠ [])) [n] = [n] := by
    simp [List.filter_cons, hnil]
  rw [hfil]
  simp [List.foldl, intoComp, hdot, hdotdot]

/-! Association-list filesystem facts. -/

/-- The paths present in a filesystem fragment. -/
def keysOf (l : FSL) : List Key := l.map Prod.fst

lemma fsGet_nil (k : Key) : fsGet [] k = none := rfl

lemma fsGet_eq_none_iff (l : FSL) (k : Key) : fsGet l k = none ↔ k ∉ keysOf l := by
  induction l with
  | nil => simp [fsGet, keysOf]
  | cons p rest ih =>
    obtain ⟨k', v⟩ := p
    by_cases h : k' = k
    · subst h
      simp only [fsGet, if_pos rfl, keysOf, List.map_cons, List.mem_cons]
      constructor
      · intro hcon; exact absurd hcon (by simp)
      · intro hcon; exact absurd (Or.inl trivial) hcon
    · simp only [fsGet, if_neg h, ih, keysOf, List.map_cons, List.mem_cons]
      constructor
      · intro hnin hcon
        rcases hcon with hc | hc
        · exact h hc.symm
        · exact hnin hc
      · intro hcon hin
        exact hcon (Or.inr hin)

lemma fsGet_append_none (a b : FSL) (k : Key) (ha : fsGet a k = none) :
    fsGet (a ++ b) k = fsGet b k := by
  induction a with
  | nil => rfl
  | cons p rest ih =>
    obtain ⟨k', v⟩ := p
    by_cases h : k' = k
    · subst h; simp [fsGet] at ha
    · simp only [fsGet, if_neg h] at ha
      simp only [List.cons_append, fsGet, if_neg h]
      exact ih ha

lemma fsSet_fresh (fs : FSL) (k : Key) (v : Node) (h : fsGet fs k = none) :
    fsSet fs k v = fs ++ [(k, v)] := by
  induction fs with
  | nil => rfl
  | cons p rest ih =>
    obtain ⟨k', v'⟩ := p
    by_cases hk : k' = k
    · subst hk; simp [fsGet] at h
    · simp only [fsGet, if_neg hk] at h
      simp only [fsSet, if_neg hk, List.cons_append]
      rw [ih h]

/-- `mkpath` on a single well-formed directory name (as the decoder passes
it, with its trailing slash) at a path not yet present: creates exactly
that directory. -/
lemma mkpath_single_fresh (fs : FSL) (p : Key) (n : Name) (hw : wfName n = true)
    (hfresh : fsGet fs (p.1, p.2 ++ [n]) = none) :
    mkpath (fun _ => true) fs p (n ++ ['/'])
      = some (fs ++ [((p.1, p.2 ++ [n]), .dir)]) := by
  obtain ⟨_, _, _, hsl, _, _, _⟩ := wfName_spec n hw
  unfold mkpath
  rw [splitSlash_concat_slash n hsl]
  simp only [List.dropLast_concat, mkpathGo, List.nil_append, hfresh]
  rw [fsSet_fresh fs _ _ hfresh]
  rfl

/-! One decoder iteration on each of the three frame shapes the encoder
emits. -/

lemma atoi_zero_digit : atoi ['0'] = 0 := by decide

/-- The sentinel frame `0:`: ascend and decrement depth. -/
lemma step_sentinel (rest : List Char) (st : UState) :
    unpackStep ('0' :: ':' :: rest) st
      = some (rest, { st with cwd := upDir st.cwd, depth := st.depth - 1 }) := by
  have h1 : next_block ('0' :: ':' :: rest) ':' 255 = (['0'], rest) := by
    have := nbGo_delim ':' ['0'] (by decide) 255 rest (by decide)
    simpa [next_block] using this
  unfold unpackStep
  rw [h1]
  simp [atoi_zero_digit, next_block, nbGo_zero, cstr]

/-- A file frame from the encoder: parse the name, the content length and
the content, and create the file at the current directory. -/
lemma step_file (n : Name) (c : List Char) (hw : wfName n = true)
    (hc : c.length < 2 ^ 63) (rest : List Char) (st : UState) :
    unpackStep (packEntry (.file n c) ++ rest) st
      = some (rest,
          { st with fs := fsSet st.fs (st.cwd.1, st.cwd.2 ++ [n]) (.file c) }) := by
  obtain ⟨hnil, hlen, hcol, hsl, hnul, _, _⟩ := wfName_spec n hw
  have harr : packEntry (.file n c) ++ rest
      = decToString n.length ++ ':' :: (n ++ (decToString c.length ++ ':' :: (c ++ rest))) := by
    simp [packEntry]
  have h1 : next_block
      (decToString n.length ++ ':' :: (n ++ (decToString c.length ++ ':' :: (c ++ rest)))) ':' 255
      = (decToString n.length, n ++ (decToString c.length ++ ':' :: (c ++ rest))) :=
    read_length_field n.length _ (by omega)
  have h2 : next_block (n ++ (decToString c.length ++ ':' :: (c ++ rest))) ':' n.length
      = (n, decToString c.length ++ ':' :: (c ++ rest)) :=
    read_name n _ (fun x hx => fun hcon => hcol (hcon ▸ hx))
  have h3 : next_block (decToString c.length ++ ':' :: (c ++ rest)) ':' 255
      = (decToString c.length, c ++ rest) := by
    refine read_length_field c.length _ ?_
    calc c.length < 2 ^ 63 := hc
    _ < 10 ^ 19 := by norm_num
  have hzero : n.length ≠ 0 := fun hcon => hnil (List.length_eq_zero.mp hcon)
  unfold unpackStep
  rw [harr]
  simp only [h1, atoi_decToString, h2, cstr_of_no_nul n hnul]
  rw [if_neg hzero, if_neg (getLast?_ne_slash n hsl)]
  simp only [h3, atoi_decToString, take_len_append, drop_len_append]

/-- A directory frame header from the encoder, at a fresh path: create the
directory, descend into it, increment depth; the children's frames and the
sentinel remain unread. -/
lemma step_dir_head (n : Name) (cs : Forest) (hw : wfName n = true)
    (rest : List Char) (st : UState)
    (hfresh : fsGet st.fs (st.cwd.1, st.cwd.2 ++ [n]) = none) :
    unpackStep (packEntry (.dir n cs) ++ rest) st
      = some (packForest cs ++ '0' :: ':' :: rest,
          { fs := st.fs ++ [((st.cwd.1, st.cwd.2 ++ [n]), .dir)],
            cwd := (st.cwd.1, st.cwd.2 ++ [n]),
            depth := st.depth + 1 }) := by
  obtain ⟨hnil, hlen, hcol, hsl, hnul, _, _⟩ := wfName_spec n hw
  have harr : packEntry (.dir n cs) ++ rest
      = decToString (n.length + 1)
          ++ ':' :: ((n ++ ['/']) ++ (packForest cs ++ '0' :: ':' :: rest)) := by
    simp [packEntry]
  have h1 : next_block
      (decToString (n.length + 1) ++ ':' :: ((n ++ ['/']) ++ (packForest cs ++ '0' :: ':' :: rest))) ':' 255
      = (decToString (n.length + 1), (n ++ ['/']) ++ (packForest cs ++ '0' :: ':' :: rest)) :=
    read_length_field (n.length + 1) _ (by omega)
  have hns : ∀ x ∈ n ++ ['/'], x ≠ ':' := by
    intro x hx
    rcases List.mem_append.mp hx with h | h
    · exact fun hcon => hcol (hcon ▸ h)
    · simp at h; subst h; decide
  have h2 : next_block ((n ++ ['/']) ++ (packForest cs ++ '0' :: ':' :: rest)) ':' (n.length + 1)
      = (n ++ ['/'], packForest cs ++ '0' :: ':' :: rest) := by
    have := read_name (n ++ ['/']) (packForest cs ++ '0' :: ':' :: rest) hns
    simpa using this
  have hnuls : nul ∉ n ++ ['/'] := by
    intro hcon
    rcases List.mem_append.mp hcon with h | h
    · exact hnul h
    · simp at h; exact absurd h.symm (by decide)
  unfold unpackStep
  rw [harr]
  simp only [h1, atoi_decToString, h2, cstr_of_no_nul _ hnuls]
  rw [if_neg (by omega : ¬ n.length + 1 = 0)]
  rw [if_pos (List.getLast?_concat n)]
  rw [mkpath_single_fresh st.fs st.cwd n hw hfresh]
  rw [intoPath_single_slash st.cwd n hw]

/-! Extraction lemmas for the Boolean well-formedness predicates. -/

lemma wfE_file_iff (n : Name) (c : List Char) :
    wfE (.file n c) = true ↔ wfName n = true ∧ c.length < 2 ^ 63 := by
  simp [wfE]

lemma wfE_dir_iff (n : Name) (cs : Forest) :
    wfE (.dir n cs) = true ↔ wfName n = true ∧ wfF cs = true := by
  simp [wfE]

lemma wfF_cons_iff (e : Entry) (es : Forest) :
    wfF (.cons e es) = true ↔ wfE e = true ∧ wfF es = true ∧ nameOf e ∉ namesF es := by
  simp [wfF, and_assoc]

/-! The resolved paths an entry's objects live at all extend the base path
by the entry's own name; this separates the objects of distinct siblings. -/

mutual
theorem keysShapeE : ∀ (k : Key) (e : Entry), ∀ k' ∈ keysOf (entriesE k e),
    ∃ r, k'.1 = k.1 ∧ k'.2 = k.2 ++ nameOf e :: r
  | k, .file n c => by
    intro k' hk'
    simp only [entriesE, keysOf, List.map_cons, List.map_nil, List.mem_singleton] at hk'
    subst hk'
    exact ⟨[], rfl, rfl⟩
  | k, .other n => by
    intro k' hk'
    simp [entriesE, keysOf] at hk'
  | k, .dir n cs => by
    intro k' hk'
    simp only [entriesE, keysOf, List.map_cons, List.mem_cons] at hk'
    rcases hk' with h | h
    · subst h; exact ⟨[], rfl, rfl⟩
    · obtain ⟨m, r, _, h1, h2⟩ := keysShapeF (k.1, k.2 ++ [n]) cs k' h
      refine ⟨m :: r, h1, ?_⟩
      rw [h2]
      simp [nameOf]
theorem keysShapeF : ∀ (k : Key) (ts : Forest), ∀ k' ∈ keysOf (entriesF k ts),
    ∃ n r, n ∈ namesF ts ∧ k'.1 = k.1 ∧ k'.2 = k.2 ++ n :: r
  | k, .nil => by
    intro k' hk'
    simp [entriesF, keysOf] at hk'
  | k, .cons e es => by
    intro k' hk'
    simp only [entriesF, keysOf, List.map_append, List.mem_append] at hk'
    rcases hk' with h | h
    · obtain ⟨r, h1, h2⟩ := keysShapeE k e k' h
      exact ⟨nameOf e, r, by simp [namesF], h1, h2⟩
    · obtain ⟨m, r, hm, h1, h2⟩ := keysShapeF k es k' h
      exact ⟨m, r, by simp [namesF, hm], h1, h2⟩
end

/-- The base directory's own path is never among the paths of the objects
below it. -/
lemma keysShapeF_ne_base (k : Key) (ts : Forest) :
    ∀ k' ∈ keysOf (entriesF k ts), k' ≠ k := by
  intro k' hk' hcon
  obtain ⟨m, r, _, _, h2⟩ := keysShapeF k ts k' hk'
  subst hcon
  have : k'.2.length = k'.2.length + (m :: r).length := by
    conv_lhs => rw [h2]
    simp
  simp at this

/-! Composing decoder iterations. -/

lemma runSteps_one (input : List Char) (st : UState) :
    runSteps 1 input st = unpackStep input st := by
  simp only [runSteps]
  cases unpackStep input st with
  | none => rfl
  | some p => rfl

lemma runSteps_add (a b : Nat) : ∀ (input : List Char) (st : UState),
    runSteps (a + b) input st
      = match runSteps a input st with
        | none => none
        | some (i, s) => runSteps b i s := by
  induction a with
  | zero => intro input st; simp [runSteps]
  | succ m ih =>
    intro input st
    rw [show m + 1 + b = (m + b) + 1 from by omega]
    simp only [runSteps]
    cases h : unpackStep input st with
    | none => rfl
    | some p =>
      obtain ⟨i, s⟩ := p
      exact ih i s

/-- Freshness of a sibling sequence's paths survives creating an earlier
sibling's objects. -/
lemma fresh_after_entry (st : UState) (e : Entry) (es : Forest)
    (hfresh : ∀ k ∈ keysOf (entriesF st.cwd (.cons e es)), fsGet st.fs k = none)
    (hname : nameOf e ∉ namesF es) :
    ∀ k ∈ keysOf (entriesF st.cwd es),
      fsGet (st.fs ++ entriesE st.cwd e) k = none := by
  intro k hk
  have hbase : fsGet st.fs k = none := by
    refine hfresh k ?_
    simp only [entriesF, keysOf, List.map_append, List.mem_append]
    exact Or.inr hk
  rw [fsGet_append_none _ _ _ hbase]
  rw [fsGet_eq_none_iff]
  intro hcon
  obtain ⟨r1, ha1, ha2⟩ := keysShapeE st.cwd e k hcon
  obtain ⟨m, r2, hm, hb1, hb2⟩ := keysShapeF st.cwd es k hk
  rw [ha2] at hb2
  have hcons : nameOf e :: r1 = m :: r2 := List.append_cancel_left hb2
  injection hcons with h1 h2
  rw [h1] at hname
  exact hname hm

/-- Freshness of a directory's children's paths below the directory key,
after the directory itself has been created. -/
lemma fresh_after_dir (st : UState) (n : Name) (cs : Forest)
    (hfresh : ∀ k ∈ keysOf (entriesE st.cwd (.dir n cs)), fsGet st.fs k = none) :
    ∀ k ∈ keysOf (entriesF (st.cwd.1, st.cwd.2 ++ [n]) cs),
      fsGet (st.fs ++ [((st.cwd.1, st.cwd.2 ++ [n]), .dir)]) k = none := by
  intro k hk
  have hbase : fsGet st.fs k = none := by
    refine hfresh k ?_
    simp only [entriesE, keysOf, List.map_cons, List.mem_cons]
    exact Or.inr hk
  rw [fsGet_append_none _ _ _ hbase]
  have hne : k ≠ (st.cwd.1, st.cwd.2 ++ [n]) :=
    keysShapeF_ne_base (st.cwd.1, st.cwd.2 ++ [n]) cs k hk
  have hne2 : ((st.cwd.1, st.cwd.2 ++ [n]) : Key) ≠ k := fun h => hne h.symm
  simp [fsGet, hne2]

mutual
/-- Decoding the frames `pack` emits for one well-formed entry, at paths
not yet present: consumes exactly those frames and creates exactly that
entry's objects under the current directory, restoring working directory
and depth. -/
theorem runA_E : ∀ (e : Entry) (st : UState) (rest : List Char),
    wfE e = true →
    (∀ k ∈ keysOf (entriesE st.cwd e), fsGet st.fs k = none) →
    runSteps (nframesE e) (packEntry e ++ rest) st
      = some (rest, { st with fs := st.fs ++ entriesE st.cwd e })
  | .file n c, st, rest, hw, hfresh => by
    obtain ⟨hwn, hc⟩ := (wfE_file_iff n c).mp hw
    have hkey : fsGet st.fs (st.cwd.1, st.cwd.2 ++ [n]) = none := by
      refine hfresh _ ?_
      have hrw : keysOf (entriesE st.cwd (.file n c)) = [(st.cwd.1, st.cwd.2 ++ [n])] := rfl
      rw [hrw]
      exact List.mem_singleton.mpr rfl
    have hset := fsSet_fresh st.fs (st.cwd.1, st.cwd.2 ++ [n]) (.file c) hkey
    show runSteps 1 _ _ = _
    rw [runSteps_one, step_file n c hwn hc rest st, hset]
    rfl
  | .other n, st, rest, hw, hfresh => by
    show runSteps 0 _ _ = _
    simp [runSteps, packEntry, entriesE]
  | .dir n cs, st, rest, hw, hfresh => by
    obtain ⟨hwn, hwf⟩ := (wfE_dir_iff n cs).mp hw
    have hkey : fsGet st.fs (st.cwd.1, st.cwd.2 ++ [n]) = none := by
      refine hfresh _ ?_
      have hrw : keysOf (entriesE st.cwd (.dir n cs))
          = (st.cwd.1, st.cwd.2 ++ [n]) :: keysOf (entriesF (st.cwd.1, st.cwd.2 ++ [n]) cs) := rfl
      rw [hrw]
      exact List.mem_cons_self _ _
    have hstep := step_dir_head n cs hwn rest st hkey
    show runSteps (1 + nframesF cs + 1) _ _ = _
    rw [show 1 + nframesF cs + 1 = 1 + (nframesF cs + 1) from by omega]
    rw [runSteps_add 1 (nframesF cs + 1), runSteps_one, hstep]
    dsimp only
    rw [runSteps_add (nframesF cs) 1]
    have hchild := runA_F cs
      { fs := st.fs ++ [((st.cwd.1, st.cwd.2 ++ [n]), .dir)],
        cwd := (st.cwd.1, st.cwd.2 ++ [n]),
        depth := st.depth + 1 }
      ('0' :: ':' :: rest) hwf (fresh_after_dir st n cs hfresh)
    dsimp only at hchild
    rw [hchild]
    dsimp only
    rw [runSteps_one, step_sentinel]
    dsimp only
    have hfs : (st.fs ++ [((st.cwd.1, st.cwd.2 ++ [n]), Node.dir)])
        ++ entriesF (st.cwd.1, st.cwd.2 ++ [n]) cs
        = st.fs ++ entriesE st.cwd (.dir n cs) := by
      rw [List.append_assoc]
      rfl
    have hdep : st.depth + 1 - 1 = st.depth := by omega
    rw [hfs, upDir_concat, hdep]
theorem runA_F : ∀ (ts : Forest) (st : UState) (rest : List Char),
    wfF ts = true →
    (∀ k ∈ keysOf (entriesF st.cwd ts), fsGet st.fs k = none) →
    runSteps (nframesF ts) (packForest ts ++ rest) st
      = some (rest, { st with fs := st.fs ++ entriesF st.cwd ts })
  | .nil, st, rest, hw, hfresh => by
    show runSteps 0 _ _ = _
    simp [runSteps, packForest, entriesF]
  | .cons e es, st, rest, hw, hfresh => by
    obtain ⟨hwe, hwes, hname⟩ := (wfF_cons_iff e es).mp hw
    show runSteps (nframesE e + nframesF es) _ _ = _
    rw [runSteps_add (nframesE e) (nframesF es)]
    have hfreshe : ∀ k ∈ keysOf (entriesE st.cwd e), fsGet st.fs k = none := by
      intro k hk
      refine hfresh k ?_
      simp only [entriesF, keysOf, List.map_append, List.mem_append]
      exact Or.inl hk
    have he := runA_E e st (packForest es ++ rest) hwe hfreshe
    rw [show packForest (.cons e es) ++ rest
        = packEntry e ++ (packForest es ++ rest) from by simp [packForest], he]
    dsimp only
    have hes := runA_F es
      { st with fs := st.fs ++ entriesE st.cwd e } rest hwes
      (fresh_after_entry st e es hfresh hname)
    dsimp only at hes
    rw [hes]
    have hfs : st.fs ++ entriesE st.cwd e ++ entriesF st.cwd es
        = st.fs ++ entriesF st.cwd (.cons e es) := by
      rw [List.append_assoc]
      rfl
    rw [hfs]
end

lemma packEntry_file_ne_nil (n : Name) (c : List Char) : packEntry (.file n c) ≠ [] := by
  simp [packEntry]

lemma packEntry_dir_ne_nil (n : Name) (cs : Forest) : packEntry (.dir n cs) ≠ [] := by
  simp [packEntry]

mutual
/-- While the decoder is part-way through the frames of a well-formed
entry, the unread input is never empty (so the end-of-file peek does not
stop the loop early). -/
theorem runB_E : ∀ (e : Entry) (st : UState) (rest : List Char),
    wfE e = true →
    (∀ k ∈ keysOf (entriesE st.cwd e), fsGet st.fs k = none) →
    ∀ j, j < nframesE e → ∀ p, runSteps j (packEntry e ++ rest) st = some p →
      p.1 ≠ []
  | .file n c, st, rest, hw, hfresh => by
    intro j hj p hp
    have hj0 : j = 0 := by
      have h1 : nframesE (.file n c) = 1 := rfl
      omega
    subst hj0
    simp only [runSteps, Option.some.injEq] at hp
    rw [← hp]
    exact append_ne_nil_left _ _ (packEntry_file_ne_nil n c)
  | .other n, st, rest, hw, hfresh => by
    intro j hj p hp
    have h0 : nframesE (.other n) = 0 := rfl
    omega
  | .dir n cs, st, rest, hw, hfresh => by
    intro j hj p hp
    obtain ⟨hwn, hwf⟩ := (wfE_dir_iff n cs).mp hw
    cases j with
    | zero =>
      simp only [runSteps, Option.some.injEq] at hp
      rw [← hp]
      exact append_ne_nil_left _ _ (packEntry_dir_ne_nil n cs)
    | succ j' =>
      have hkey : fsGet st.fs (st.cwd.1, st.cwd.2 ++ [n]) = none := by
        refine hfresh _ ?_
        have hrw : keysOf (entriesE st.cwd (.dir n cs))
            = (st.cwd.1, st.cwd.2 ++ [n]) :: keysOf (entriesF (st.cwd.1, st.cwd.2 ++ [n]) cs) := rfl
        rw [hrw]
        exact List.mem_cons_self _ _
      have hstep := step_dir_head n cs hwn rest st hkey
      rw [show j' + 1 = 1 + j' from by omega, runSteps_add 1 j', runSteps_one, hstep] at hp
      dsimp only at hp
      have hjF : j' ≤ nframesF cs := by
        have h2 : nframesE (.dir n cs) = 1 + nframesF cs + 1 := rfl
        omega
      rcases Nat.lt_or_ge j' (nframesF cs) with hlt | hge
      · exact runB_F cs
          { fs := st.fs ++ [((st.cwd.1, st.cwd.2 ++ [n]), .dir)],
            cwd := (st.cwd.1, st.cwd.2 ++ [n]),
            depth := st.depth + 1 }
          ('0' :: ':' :: rest) hwf (fresh_after_dir st n cs hfresh) j' hlt p hp
      · have hj'' : j' = nframesF cs := by omega
        subst hj''
        have hchild := runA_F cs
          { fs := st.fs ++ [((st.cwd.1, st.cwd.2 ++ [n]), .dir)],
            cwd := (st.cwd.1, st.cwd.2 ++ [n]),
            depth := st.depth + 1 }
          ('0' :: ':' :: rest) hwf (fresh_after_dir st n cs hfresh)
        dsimp only at hchild
        rw [hchild] at hp
        simp only [Option.some.injEq] at hp
        rw [← hp]
        simp
theorem runB_F : ∀ (ts : Forest) (st : UState) (rest : List Char),
    wfF ts = true →
    (∀ k ∈ keysOf (entriesF st.cwd ts), fsGet st.fs k = none) →
    ∀ j, j < nframesF ts → ∀ p, runSteps j (packForest ts ++ rest) st = some p →
      p.1 ≠ []
  | .nil, st, rest, hw, hfresh => by
    intro j hj p hp
    have h0 : nframesF .nil = 0 := rfl
    omega
  | .cons e es, st, rest, hw, hfresh => by
    intro j hj p hp
    obtain ⟨hwe, hwes, hname⟩ := (wfF_cons_iff e es).mp hw
    have hfreshe : ∀ k ∈ keysOf (entriesE st.cwd e), fsGet st.fs k = none := by
      intro k hk
      refine hfresh k ?_
      simp only [entriesF, keysOf, List.map_append, List.mem_append]
      exact Or.inl hk
    rw [show packForest (.cons e es) ++ rest
        = packEntry e ++ (packForest es ++ rest) from by simp [packForest]] at hp
    rcases Nat.lt_or_ge j (nframesE e) with hlt | hge
    · exact runB_E e st (packForest es ++ rest) hwe hfreshe j hlt p hp
    · obtain ⟨j'', rfl⟩ : ∃ j'', j = nframesE e + j'' := ⟨j - nframesE e, by omega⟩
      rw [runSteps_add (nframesE e) j'',
        runA_E e st (packForest es ++ rest) hwe hfreshe] at hp
      dsimp only at hp
      have hjlt : j'' < nframesF es := by
        have h2 : nframesF (.cons e es) = nframesE e + nframesF es := rfl
        omega
      exact runB_F es
        { st with fs := st.fs ++ entriesE st.cwd e } rest hwes
        (fresh_after_entry st e es hfresh hname) j'' hjlt p hp
end

/-- The do-while loop of `unpack` agrees with `runSteps` when the run ends
with the input exhausted and no earlier iteration exhausts it: the loop
performs exactly those iterations, the final end-of-file peek stops it. -/
theorem loop_of_runSteps : ∀ (m : Nat) (input : List Char) (st : UState)
    (stF : UState) (fuel : Nat), m + 1 ≤ fuel →
    runSteps (m + 1) input st = some ([], stF) →
    (∀ j p, 1 ≤ j → j < m + 1 → runSteps j input st = some p → p.1 ≠ []) →
    unpackLoopF fuel input st = some (.ok stF) := by
  intro m
  induction m with
  | zero =>
    intro input st stF fuel hfuel hrun _
    obtain ⟨f, rfl⟩ : ∃ f, fuel = f + 1 := ⟨fuel - 1, by omega⟩
    simp only [runSteps] at hrun
    cases hstep : unpackStep input st with
    | none => rw [hstep] at hrun; simp at hrun
    | some p =>
      obtain ⟨i', s'⟩ := p
      rw [hstep] at hrun
      simp only [runSteps, Option.some.injEq, Prod.mk.injEq] at hrun
      obtain ⟨hi, hs⟩ := hrun
      simp [unpackLoopF, hstep, hi, hs]
  | succ m ih =>
    intro input st stF fuel hfuel hrun hmid
    obtain ⟨f, rfl⟩ : ∃ f, fuel = f + 1 := ⟨fuel - 1, by omega⟩
    cases hstep : unpackStep input st with
    | none =>
      rw [show m + 1 + 1 = 1 + (m + 1) from by omega, runSteps_add 1 (m + 1),
        runSteps_one, hstep] at hrun
      simp at hrun
    | some p =>
      obtain ⟨i', s'⟩ := p
      have hi' : i' ≠ [] := by
        refine hmid 1 (i', s') le_rfl (by omega) ?_
        rw [runSteps_one, hstep]
      simp only [unpackLoopF, hstep, if_neg hi']
      have hshift : ∀ j, runSteps (j + 1) input st = runSteps j i' s' := by
        intro j
        rw [show j + 1 = 1 + j from by omega, runSteps_add 1 j, runSteps_one, hstep]
      refine ih i' s' stF f (by omega) ?_ ?_
      · rw [← hshift (m + 1)]
        exact hrun
      · intro j p h1 h2 hp
        refine hmid (j + 1) p (by omega) (by omega) ?_
        rw [hshift j]
        exact hp

/-- Decoding a complete packed archive of a well-formed sibling sequence
(at least one frame) from the initial state: every object of the sequence
is created under the destination root, and the working directory and depth
counter return to their starting values. -/
theorem decode_packForest (ts : Forest) (hw : wfF ts = true)
    (h1 : 1 ≤ nframesF ts) :
    unpackLoopF (nframesF ts) (packForest ts) initState
      = some (.ok { fs := entriesF (0, []) ts, cwd := (0, []), depth := 1 }) := by
  obtain ⟨m, hm⟩ : ∃ m, nframesF ts = m + 1 := ⟨nframesF ts - 1, by omega⟩
  have hfresh : ∀ k ∈ keysOf (entriesF initState.cwd ts), fsGet initState.fs k = none := by
    intro k _
    rfl
  have hrun := runA_F ts initState [] hw hfresh
  rw [List.append_nil] at hrun
  have hrun' : runSteps (nframesF ts) (packForest ts) initState
      = some ([], { fs := entriesF (0, []) ts, cwd := (0, []), depth := 1 }) := by
    rw [hrun]
    rfl
  refine loop_of_runSteps m (packForest ts) initState _ (nframesF ts) (by omega) ?_ ?_
  · rw [← hm]
    exact hrun'
  · intro j p hj1 hj2 hp
    refine runB_F ts initState [] hw hfresh j (by omega) p ?_
    rw [List.append_nil]
    exact hp

/-- On an exhausted source `next_block` reads nothing, `atoi` on the empty
buffer yields 0, and the iteration takes the sentinel branch. -/
lemma unpackStep_nil (st : UState) :
    unpackStep [] st
      = some ([], { st with cwd := upDir st.cwd, depth := st.depth - 1 }) := by
  unfold unpackStep
  have h1 : next_block [] ':' 255 = ([], []) := nbGo_nil ':' 255
  rw [h1]
  simp [atoi, atoiGo, next_block, nbGo_zero]

/-- Whenever the source is not yet exhausted, one iteration of the frame
loop consumes at least one byte. -/
lemma unpackStep_shrink (input : List Char) (st : UState) (i' : List Char)
    (s' : UState) (hin : input ≠ []) (hstep : unpackStep input st = some (i', s')) :
    i'.length < input.length := by
  have h1 : (next_block input ':' 255).2.length < input.length :=
    nbGo_len_lt ':' 255 input hin (by norm_num)
  have h2 : ∀ m, (next_block (next_block input ':' 255).2 ':' m).2.length
      ≤ (next_block input ':' 255).2.length := fun m => nbGo_len_le ':' m _
  have h3 : ∀ (l : List Char) (k : Nat), (l.drop k).length ≤ l.length := by
    intro l k
    rw [List.length_drop]
    omega
  unfold unpackStep at hstep
  dsimp only at hstep
  split at hstep
  · -- sentinel branch
    simp only [Option.some.injEq, Prod.mk.injEq] at hstep
    obtain ⟨hi, _⟩ := hstep
    rw [← hi]
    exact Nat.lt_of_le_of_lt (h2 _) h1
  · split at hstep
    · -- directory branch
      split at hstep
      · exact absurd hstep (by simp)
      · simp only [Option.some.injEq, Prod.mk.injEq] at hstep
        obtain ⟨hi, _⟩ := hstep
        rw [← hi]
        exact Nat.lt_of_le_of_lt (h2 _) h1
    · -- file branch
      simp only [Option.some.injEq, Prod.mk.injEq] at hstep
      obtain ⟨hi, _⟩ := hstep
      rw [← hi]
      refine Nat.lt_of_le_of_lt ?_ h1
      refine le_trans (h3 _ _) ?_
      exact le_trans (nbGo_len_le ':' 255 _) (h2 _)

/-- Fuel `input.length + 1` always completes the frame loop: each iteration
on a nonempty source consumes at least one byte, and on an empty source the
end-of-file peek exits. -/
theorem unpackLoopF_total : ∀ (L : Nat) (input : List Char) (st : UState),
    input.length ≤ L → (unpackLoopF (L + 1) input st).isSome = true := by
  intro L
  induction L with
  | zero =>
    intro input st hlen
    have hnil : input = [] := List.length_eq_zero.mp (by omega)
    subst hnil
    simp [unpackLoopF, unpackStep_nil]
  | succ L ih =>
    intro input st hlen
    cases hstep : unpackStep input st with
    | none => simp [unpackLoopF, hstep]
    | some p =>
      obtain ⟨i', s'⟩ := p
      by_cases hi : i' = []
      · simp [unpackLoopF, hstep, hi]
      · have hin : input ≠ [] := by
          intro hcon
          subst hcon
          rw [unpackStep_nil] at hstep
          simp only [Option.some.injEq, Prod.mk.injEq] at hstep
          exact hi hstep.1.symm
        have hlt := unpackStep_shrink input st i' s' hin hstep
        simp only [unpackLoopF, hstep, if_neg hi]
        exact ih i' s' (by omega)

/-! Working-directory discipline of the encoder. -/

lemma argOkE_dir_iff (n : Name) (cs : Forest) :
    argOkE (.dir n cs) = true
      ↔ (n ≠ [] ∧ '/' ∉ n ∧ n ≠ ['.'] ∧ n ≠ ['.', '.']) ∧ argOkF cs = true := by
  simp [argOkE]

lemma argOkF_cons_iff (e : Entry) (es : Forest) :
    argOkF (.cons e es) = true ↔ argOkE e = true ∧ argOkF es = true := by
  simp [argOkF]

mutual
/-- Packing an entry whose directory names are single relative components
(as all `readdir` names are) restores the working directory: the
`chdir(fn)` descent is undone by the matching `chdir("..")`. -/
theorem packCwdE_restore : ∀ (e : Entry) (p : Key), argOkE e = true →
    packCwdE e p = p
  | .file _ _, _, _ => rfl
  | .other _, _, _ => rfl
  | .dir n cs, p, h => by
    obtain ⟨⟨hnil, hsl, hdot, hdd⟩, hcs⟩ := (argOkE_dir_iff n cs).mp h
    show upDir (packCwdF cs (intoPath p n)) = p
    rw [intoPath_single p n hnil hsl hdot hdd, packCwdF_restore cs _ hcs]
    exact upDir_concat p.1 p.2 n
/-- `packCwdE_restore` over a sibling sequence. -/
theorem packCwdF_restore : ∀ (ts : Forest) (p : Key), argOkF ts = true →
    packCwdF ts p = p
  | .nil, _, _ => rfl
  | .cons e es, p, h => by
    obtain ⟨he, hes⟩ := (argOkF_cons_iff e es).mp h
    show packCwdF es (packCwdE e p) = p
    rw [packCwdE_restore e p he, packCwdF_restore es p hes]
end

/-! Skipped entries leave no trace in the archive. -/

theorem packForest_append : ∀ (a b : Forest),
    packForest (Forest.append a b) = packForest a ++ packForest b
  | .nil, _ => rfl
  | .cons e es, b => by
    show packEntry e ++ packForest (Forest.append es b) = _
    rw [packForest_append es b]
    simp [packForest]

theorem packWarnF_append : ∀ (a b : Forest),
    packWarnF (Forest.append a b) = packWarnF a ++ packWarnF b
  | .nil, _ => rfl
  | .cons e es, b => by
    show packWarnE e ++ packWarnF (Forest.append es b) = _
    rw [packWarnF_append es b]
    simp [packWarnF]

theorem entriesF_append : ∀ (k : Key) (a b : Forest),
    entriesF k (Forest.append a b) = entriesF k a ++ entriesF k b
  | _, .nil, _ => rfl
  | k, .cons e es, b => by
    show entriesE k e ++ entriesF k (Forest.append es b) = _
    rw [entriesF_append k es b]
    simp [entriesF]

theorem nframesF_append : ∀ (a b : Forest),
    nframesF (Forest.append a b) = nframesF a + nframesF b
  | .nil, b => by
    show nframesF b = nframesF Forest.nil + nframesF b
    show nframesF b = 0 + nframesF b
    omega
  | .cons e es, b => by
    show nframesE e + nframesF (Forest.append es b) = _
    rw [nframesF_append es b]
    show _ = nframesE e + nframesF es + nframesF b
    omega

/-! Specification of `mkpath`. -/

lemma fsGet_append_some (a b : FSL) (k : Key) (v : Node) (ha : fsGet a k = some v) :
    fsGet (a ++ b) k = some v := by
  induction a with
  | nil => simp [fsGet] at ha
  | cons p rest ih =>
    obtain ⟨k', v'⟩ := p
    by_cases h : k' = k
    · subst h
      simp only [fsGet, if_pos rfl] at ha ⊢
      exact ha
    · simp only [fsGet, if_neg h] at ha ⊢
      exact ih ha

/-- The paths `mkpath` visits: for each component consumed (one per `'/'`
byte of the original path), the resolved prefix ending there. -/
def visitKeys (base : Key) : List Name → List Name → List Key
  | _, [] => []
  | acc, c :: rest =>
    (base.1, base.2 ++ (acc ++ [c])) :: visitKeys base (acc ++ [c]) rest

/-- The visited paths absent from `fs`, as the directories `mkdir` will
create, in creation order. -/
def missingDirs (fs : FSL) (ks : List Key) : FSL :=
  ks.filterMap (fun k => if fsGet fs k = none then some (k, Node.dir) else none)

lemma visitKeys_longer (base : Key) : ∀ (rest acc : List Name),
    ∀ k' ∈ visitKeys base acc rest, (base.2 ++ acc).length < k'.2.length := by
  intro rest
  induction rest with
  | nil => intro acc k' hk'; simp [visitKeys] at hk'
  | cons c cs ih =>
    intro acc k' hk'
    simp only [visitKeys, List.mem_cons] at hk'
    rcases hk' with h | h
    · subst h
      simp
    · have := ih (acc ++ [c]) k' h
      simp only [List.length_append] at this ⊢
      simpa using by omega

lemma missingDirs_congr (fs fs' : FSL) : ∀ (ks : List Key),
    (∀ k ∈ ks, fsGet fs k = fsGet fs' k) → missingDirs fs ks = missingDirs fs' ks := by
  intro ks
  induction ks with
  | nil => intro _; rfl
  | cons k rest ih =>
    intro h
    have hk := h k (by simp)
    simp only [missingDirs, List.filterMap_cons] at ih ⊢
    rw [hk, ih (fun x hx => h x (by simp [hx]))]

/-- Success case of `mkpath`'s walk: when every visited path is either an
existing directory or absent with `mkdir` succeeding, the walk returns 0
having created exactly the missing ones, in order. -/
theorem mkpathGo_ok (mkOk : Key → Bool) (base : Key) : ∀ (rest acc : List Name) (fs : FSL),
    (∀ k ∈ visitKeys base acc rest,
      fsGet fs k = some .dir ∨ (fsGet fs k = none ∧ mkOk k = true)) →
    mkpathGo mkOk base fs acc rest
      = some (fs ++ missingDirs fs (visitKeys base acc rest)) := by
  intro rest
  induction rest with
  | nil =>
    intro acc fs _
    simp [mkpathGo, visitKeys, missingDirs]
  | cons c cs ih =>
    intro acc fs hgood
    have hhead := hgood (base.1, base.2 ++ (acc ++ [c])) (by simp [visitKeys])
    have htail_longer := visitKeys_longer base cs (acc ++ [c])
    rcases hhead with hdir | ⟨habs, hmk⟩
    · -- the component already exists as a directory
      show mkpathGo mkOk base fs acc (c :: cs) = _
      rw [show mkpathGo mkOk base fs acc (c :: cs)
          = (match fsGet fs (base.1, base.2 ++ (acc ++ [c])) with
             | none => if mkOk (base.1, base.2 ++ (acc ++ [c]))
                 then mkpathGo mkOk base (fsSet fs (base.1, base.2 ++ (acc ++ [c])) .dir) (acc ++ [c]) cs
                 else none
             | some .dir => mkpathGo mkOk base fs (acc ++ [c]) cs
             | some (.file _) => none) from rfl]
      rw [hdir]
      rw [ih (acc ++ [c]) fs (fun k hk => hgood k (by simp [visitKeys, hk]))]
      have hmiss : missingDirs fs (visitKeys base acc (c :: cs))
          = missingDirs fs (visitKeys base (acc ++ [c]) cs) := by
        simp only [visitKeys, missingDirs, List.filterMap_cons, hdir]
        simp
      rw [hmiss]
    · -- the component is missing and mkdir creates it
      show mkpathGo mkOk base fs acc (c :: cs) = _
      rw [show mkpathGo mkOk base fs acc (c :: cs)
          = (match fsGet fs (base.1, base.2 ++ (acc ++ [c])) with
             | none => if mkOk (base.1, base.2 ++ (acc ++ [c]))
                 then mkpathGo mkOk base (fsSet fs (base.1, base.2 ++ (acc ++ [c])) .dir) (acc ++ [c]) cs
                 else none
             | some .dir => mkpathGo mkOk base fs (acc ++ [c]) cs
             | some (.file _) => none) from rfl]
      rw [habs]
      simp only [hmk, if_pos]
      rw [fsSet_fresh fs _ .dir habs]
      have hsame : ∀ k ∈ visitKeys base (acc ++ [c]) cs,
          fsGet (fs ++ [((base.1, base.2 ++ (acc ++ [c])), Node.dir)]) k = fsGet fs k := by
        intro k hk
        have hne : ((base.1, base.2 ++ (acc ++ [c])) : Key) ≠ k := by
          intro hcon
          have := htail_longer k hk
          rw [← hcon] at this
          simp at this
        cases hfs : fsGet fs k with
        | some v => exact fsGet_append_some fs _ k v hfs
        | none =>
          rw [fsGet_append_none fs _ k hfs]
          simp [fsGet, hne]
      rw [ih (acc ++ [c]) (fs ++ [((base.1, base.2 ++ (acc ++ [c])), Node.dir)])
        (fun k hk => by rw [hsame k hk]; exact hgood k (by simp [visitKeys, hk]))]
      have hmiss2 : missingDirs (fs ++ [((base.1, base.2 ++ (acc ++ [c])), Node.dir)])
            (visitKeys base (acc ++ [c]) cs)
          = missingDirs fs (visitKeys base (acc ++ [c]) cs) :=
        missingDirs_congr _ _ _ (fun k hk => (hsame k hk))
      rw [hmiss2]
      have hmiss3 : missingDirs fs (visitKeys base acc (c :: cs))
          = ((base.1, base.2 ++ (acc ++ [c])), Node.dir)
              :: missingDirs fs (visitKeys base (acc ++ [c]) cs) := by
        simp only [visitKeys, missingDirs, List.filterMap_cons, habs]
        simp
      rw [hmiss3]
      simp

/-- Failure case of `mkpath`'s walk: a `-1` return means some visited path
exists as a non-directory, or is absent and `mkdir` fails there. -/
theorem mkpathGo_fail (mkOk : Key → Bool) (base : Key) : ∀ (rest acc : List Name) (fs : FSL),
    mkpathGo mkOk base fs acc rest = none →
    ∃ k ∈ visitKeys base acc rest,
      (∃ ct, fsGet fs k = some (.file ct)) ∨ (fsGet fs k = none ∧ mkOk k = false) := by
  intro rest
  induction rest with
  | nil =>
    intro acc fs hnone
    simp [mkpathGo] at hnone
  | cons c cs ih =>
    intro acc fs hnone
    rw [show mkpathGo mkOk base fs acc (c :: cs)
        = (match fsGet fs (base.1, base.2 ++ (acc ++ [c])) with
           | none => if mkOk (base.1, base.2 ++ (acc ++ [c]))
               then mkpathGo mkOk base (fsSet fs (base.1, base.2 ++ (acc ++ [c])) .dir) (acc ++ [c]) cs
               else none
           | some .dir => mkpathGo mkOk base fs (acc ++ [c]) cs
           | some (.file _) => none) from rfl] at hnone
    cases hfs : fsGet fs (base.1, base.2 ++ (acc ++ [c])) with
    | none =>
      rw [hfs] at hnone
      by_cases hmk : mkOk (base.1, base.2 ++ (acc ++ [c])) = true
      · simp only [hmk, if_pos] at hnone
        rw [fsSet_fresh fs _ .dir hfs] at hnone
        obtain ⟨k, hk, hbad⟩ := ih (acc ++ [c]) _ hnone
        refine ⟨k, by simp [visitKeys, hk], ?_⟩
        have hne : ((base.1, base.2 ++ (acc ++ [c])) : Key) ≠ k := by
          intro hcon
          have := visitKeys_longer base cs (acc ++ [c]) k hk
          rw [← hcon] at this
          simp at this
        have hsame : fsGet (fs ++ [((base.1, base.2 ++ (acc ++ [c])), Node.dir)]) k
            = fsGet fs k := by
          cases hfs2 : fsGet fs k with
          | some v => exact fsGet_append_some fs _ k v hfs2
          | none =>
            rw [fsGet_append_none fs _ k hfs2]
            simp [fsGet, hne]
        rw [hsame] at hbad
        exact hbad
      · refine ⟨(base.1, base.2 ++ (acc ++ [c])), by simp [visitKeys], Or.inr ⟨hfs, ?_⟩⟩
        simpa using hmk
    | some v =>
      cases v with
      | dir =>
        rw [hfs] at hnone
        obtain ⟨k, hk, hbad⟩ := ih (acc ++ [c]) fs hnone
        exact ⟨k, by simp [visitKeys, hk], hbad⟩
      | file ct =>
        rw [hfs] at hnone
        exact ⟨(base.1, base.2 ++ (acc ++ [c])), by simp [visitKeys], Or.inl ⟨ct, hfs⟩⟩

/-- Unfolding of the frame scanner on a nonempty stream. -/
lemma scanFrames_ne_nil (f : Nat) (input : List Char) (hin : input ≠ []) :
    scanFrames (f + 1) input
      = (let p1 := next_block input ':' 255
         let fnl := atoi p1.1
         let p2 := next_block p1.2 ':' fnl
         let fn := cstr p2.1
         if fnl = 0 then fnl :: scanFrames f p2.2
         else if fn.getLast? = some '/' then fnl :: scanFrames f p2.2
         else
           let p3 := next_block p2.2 ':' 255
           fnl :: scanFrames f (p3.2.drop (atoi p3.1))) := by
  obtain ⟨c, cs, rfl⟩ := List.exists_cons_of_ne_nil hin
  rfl

mutual
/-- The decoder's frame scan of a packed well-formed entry reads exactly
the declared lengths the encoder wrote, frame for frame. -/
theorem scanE : ∀ (e : Entry) (fuel : Nat) (rest : List Char), wfE e = true →
    scanFrames (nframesE e + fuel) (packEntry e ++ rest)
      = (frameTagsE e).map declOf ++ scanFrames fuel rest
  | .file n c, fuel, rest, hw => by
    obtain ⟨hwn, hc⟩ := (wfE_file_iff n c).mp hw
    obtain ⟨hnil, hlen, hcol, hsl, hnul, _, _⟩ := wfName_spec n hwn
    have harr : packEntry (.file n c) ++ rest
        = decToString n.length ++ ':' :: (n ++ (decToString c.length ++ ':' :: (c ++ rest))) := by
      simp [packEntry]
    have h1 : next_block
        (decToString n.length ++ ':' :: (n ++ (decToString c.length ++ ':' :: (c ++ rest)))) ':' 255
        = (decToString n.length, n ++ (decToString c.length ++ ':' :: (c ++ rest))) :=
      read_length_field n.length _ (by omega)
    have h2 : next_block (n ++ (decToString c.length ++ ':' :: (c ++ rest))) ':' n.length
        = (n, decToString c.length ++ ':' :: (c ++ rest)) :=
      read_name n _ (fun x hx => fun hcon => hcol (hcon ▸ hx))
    have h3 : next_block (decToString c.length ++ ':' :: (c ++ rest)) ':' 255
        = (decToString c.length, c ++ rest) := by
      refine read_length_field c.length _ ?_
      calc c.length < 2 ^ 63 := hc
      _ < 10 ^ 19 := by norm_num
    have hzero : n.length ≠ 0 := fun hcon => hnil (List.length_eq_zero.mp hcon)
    show scanFrames (1 + fuel) _ = _
    rw [show 1 + fuel = fuel + 1 from by omega]
    rw [scanFrames_ne_nil fuel _ (append_ne_nil_left _ _ (packEntry_file_ne_nil n c))]
    rw [harr]
    simp only [h1, atoi_decToString, h2, cstr_of_no_nul n hnul]
    rw [if_neg hzero, if_neg (getLast?_ne_slash n hsl)]
    simp only [h3, atoi_decToString, drop_len_append]
    simp [frameTagsE, declOf]
  | .other n, fuel, rest, hw => by
    show scanFrames (0 + fuel) (packEntry (.other n) ++ rest) = _
    simp [packEntry, frameTagsE]
  | .dir n cs, fuel, rest, hw => by
    obtain ⟨hwn, hwf⟩ := (wfE_dir_iff n cs).mp hw
    obtain ⟨hnil, hlen, hcol, hsl, hnul, _, _⟩ := wfName_spec n hwn
    have harr : packEntry (.dir n cs) ++ rest
        = decToString (n.length + 1)
            ++ ':' :: ((n ++ ['/']) ++ (packForest cs ++ '0' :: ':' :: rest)) := by
      simp [packEntry]
    have h1 : next_block
        (decToString (n.length + 1)
          ++ ':' :: ((n ++ ['/']) ++ (packForest cs ++ '0' :: ':' :: rest))) ':' 255
        = (decToString (n.length + 1), (n ++ ['/']) ++ (packForest cs ++ '0' :: ':' :: rest)) :=
      read_length_field (n.length + 1) _ (by omega)
    have hns : ∀ x ∈ n ++ ['/'], x ≠ ':' := by
      intro x hx
      rcases List.mem_append.mp hx with h | h
      · exact fun hcon => hcol (hcon ▸ h)
      · simp at h; subst h; decide
    have h2 : next_block ((n ++ ['/']) ++ (packForest cs ++ '0' :: ':' :: rest)) ':' (n.length + 1)
        = (n ++ ['/'], packForest cs ++ '0' :: ':' :: rest) := by
      have := read_name (n ++ ['/']) (packForest cs ++ '0' :: ':' :: rest) hns
      simpa using this
    have hnuls : nul ∉ n ++ ['/'] := by
      intro hcon
      rcases List.mem_append.mp hcon with h | h
      · exact hnul h
      · simp at h; exact absurd h.symm (by decide)
    show scanFrames (1 + nframesF cs + 1 + fuel) _ = _
    rw [show 1 + nframesF cs + 1 + fuel = (nframesF cs + 1 + fuel) + 1 from by omega]
    rw [scanFrames_ne_nil _ _ (append_ne_nil_left _ _ (packEntry_dir_ne_nil n cs))]
    rw [harr]
    simp only [h1, atoi_decToString, h2, cstr_of_no_nul _ hnuls]
    rw [if_neg (by omega : ¬ n.length + 1 = 0), if_pos (List.getLast?_concat n)]
    rw [show nframesF cs + 1 + fuel = nframesF cs + (1 + fuel) from by omega]
    rw [scanF cs (1 + fuel) ('0' :: ':' :: rest) hwf]
    rw [show 1 + fuel = fuel + 1 from by omega]
    rw [scanFrames_ne_nil fuel ('0' :: ':' :: rest) (by simp)]
    have hs1 : nbGo ':' 255 ('0' :: ':' :: rest) = (['0'], rest) := by
      have := nbGo_delim ':' ['0'] (by decide) 255 rest (by decide)
      simpa using this
    simp only [next_block, hs1, atoi_zero_digit, nbGo_zero]
    simp [frameTagsE, declOf]
theorem scanF : ∀ (ts : Forest) (fuel : Nat) (rest : List Char), wfF ts = true →
    scanFrames (nframesF ts + fuel) (packForest ts ++ rest)
      = (frameTagsF ts).map declOf ++ scanFrames fuel rest
  | .nil, fuel, rest, hw => by
    show scanFrames (0 + fuel) ([] ++ rest) = _
    simp [frameTagsF]
  | .cons e es, fuel, rest, hw => by
    obtain ⟨hwe, hwes, _⟩ := (wfF_cons_iff e es).mp hw
    show scanFrames (nframesE e + nframesF es + fuel) _ = _
    rw [show packForest (.cons e es) ++ rest
        = packEntry e ++ (packForest es ++ rest) from by simp [packForest]]
    rw [show nframesE e + nframesF es + fuel = nframesE e + (nframesF es + fuel) from by omega]
    rw [scanE e (nframesF es + fuel) (packForest es ++ rest) hwe]
    rw [scanF es fuel rest hwes]
    show _ = (frameTagsF (.cons e es)).map declOf ++ scanFrames fuel rest
    rw [show frameTagsF (.cons e es) = frameTagsE e ++ frameTagsF es from rfl]
    simp
end

mutual
/-- Every frame the encoder emits for a well-formed entry carries a
declared length of at least 1 for a file name, at least 2 for a directory
name, or is the zero-length sentinel. -/
theorem tagsOkE : ∀ (e : Entry), wfE e = true → ∀ t ∈ frameTagsE e,
    (∃ l, t = .fileT l ∧ 1 ≤ l) ∨ (∃ l, t = .dirT l ∧ 2 ≤ l) ∨ t = .sentT
  | .file n c, hw, t, ht => by
    obtain ⟨hwn, _⟩ := (wfE_file_iff n c).mp hw
    obtain ⟨hnil, _, _, _, _, _, _⟩ := wfName_spec n hwn
    simp only [frameTagsE, List.mem_singleton] at ht
    subst ht
    exact Or.inl ⟨n.length, rfl, List.length_pos.mpr hnil⟩
  | .other n, hw, t, ht => by
    simp [frameTagsE] at ht
  | .dir n cs, hw, t, ht => by
    obtain ⟨hwn, hwf⟩ := (wfE_dir_iff n cs).mp hw
    obtain ⟨hnil, _, _, _, _, _, _⟩ := wfName_spec n hwn
    simp only [frameTagsE, List.mem_cons, List.mem_append, List.mem_singleton] at ht
    rcases ht with h | h | h | h
    · subst h
      refine Or.inr (Or.inl ⟨n.length + 1, rfl, ?_⟩)
      have := List.length_pos.mpr hnil
      omega
    · exact tagsOkF cs hwf t h
    · subst h
      exact Or.inr (Or.inr rfl)
    · simp at h
theorem tagsOkF : ∀ (ts : Forest), wfF ts = true → ∀ t ∈ frameTagsF ts,
    (∃ l, t = .fileT l ∧ 1 ≤ l) ∨ (∃ l, t = .dirT l ∧ 2 ≤ l) ∨ t = .sentT
  | .nil, hw, t, ht => by
    simp [frameTagsF] at ht
  | .cons e es, hw, t, ht => by
    obtain ⟨hwe, hwes, _⟩ := (wfF_cons_iff e es).mp hw
    rw [show frameTagsF (.cons e es) = frameTagsE e ++ frameTagsF es from rfl] at ht
    rcases List.mem_append.mp ht with h | h
    · exact tagsOkE e hwe t h
    · exact tagsOkF es hwes t h
end

mutual
/-- In the frame sequence of any packed entry, sentinels and directory
frames are in bijection: each directory frame is closed by exactly one
sentinel. -/
theorem sentBalanceE : ∀ (e : Entry),
    ((frameTagsE e).filter (fun t => isSentT t)).length
      = ((frameTagsE e).filter (fun t => isDirT t)).length
  | .file n c => rfl
  | .other n => rfl
  | .dir n cs => by
    rw [show frameTagsE (.dir n cs)
        = .dirT (n.length + 1) :: (frameTagsF cs ++ [.sentT]) from rfl]
    simp only [List.filter_cons, List.filter_append]
    have hb := sentBalanceF cs
    simp only [isSentT, isDirT] at hb ⊢
    simp [hb]
theorem sentBalanceF : ∀ (ts : Forest),
    ((frameTagsF ts).filter (fun t => isSentT t)).length
      = ((frameTagsF ts).filter (fun t => isDirT t)).length
  | .nil => rfl
  | .cons e es => by
    rw [show frameTagsF (.cons e es) = frameTagsE e ++ frameTagsF es from rfl]
    simp only [List.filter_append, List.length_append]
    rw [sentBalanceE e, sentBalanceF es]
end

/-- Decoding the packed archive of one well-formed entry from the initial
state. -/
theorem decode_packEntry (e : Entry) (hw : wfE e = true) (h1 : 1 ≤ nframesE e) :
    unpackLoopF (nframesE e) (packEntry e) initState
      = some (.ok { fs := entriesE (0, []) e, cwd := (0, []), depth := 1 }) := by
  obtain ⟨m, hm⟩ : ∃ m, nframesE e = m + 1 := ⟨nframesE e - 1, by omega⟩
  have hfresh : ∀ k ∈ keysOf (entriesE initState.cwd e), fsGet initState.fs k = none :=
    fun k _ => rfl
  have hrun := runA_E e initState [] hw hfresh
  rw [List.append_nil] at hrun
  have hrun' : runSteps (nframesE e) (packEntry e) initState
      = some ([], { fs := entriesE (0, []) e, cwd := (0, []), depth := 1 }) := by
    rw [hrun]
    rfl
  refine loop_of_runSteps m (packEntry e) initState _ (nframesE e) (by omega) ?_ ?_
  · rw [← hm]
    exact hrun'
  · intro j p hj1 hj2 hp
    refine runB_E e initState [] hw hfresh j (by omega) p ?_
    rw [List.append_nil]
    exact hp

/-- A tree with only regular files and directories produces at least one
frame. -/
theorem nframes_pos_of_noOther : ∀ (e : Entry), noOtherE e = true → 1 ≤ nframesE e
  | .file _ _, _ => le_rfl
  | .dir _ cs, _ => by
    show 1 ≤ 1 + nframesF cs + 1
    omega
  | .other _, h => by simp [noOtherE] at h

theorem namesF_append : ∀ (a b : Forest),
    namesF (Forest.append a b) = namesF a ++ namesF b
  | .nil, _ => rfl
  | .cons e es, b => by
    show nameOf e :: namesF (Forest.append es b) = _
    rw [namesF_append es b]
    simp [namesF]

/-- Removing a skipped (non-regular) entry from a sibling sequence keeps it
well formed. -/
theorem wfF_drop_other (n : Name) : ∀ (pre post : Forest),
    wfF (Forest.append pre (.cons (.other n) post)) = true →
    wfF (Forest.append pre post) = true
  | .nil, post, h => ((wfF_cons_iff (.other n) post).mp h).2.1
  | .cons e pre', post, h => by
    obtain ⟨he, hrest, hname⟩ :=
      (wfF_cons_iff e (Forest.append pre' (.cons (.other n) post))).mp h
    refine (wfF_cons_iff e (Forest.append pre' post)).mpr
      ⟨he, wfF_drop_other n pre' post hrest, ?_⟩
    intro hcon
    apply hname
    rw [namesF_append] at hcon ⊢
    rcases List.mem_append.mp hcon with h1 | h1
    · exact List.mem_append.mpr (Or.inl h1)
    · refine List.mem_append.mpr (Or.inr ?_)
      show nameOf e ∈ namesF (.cons (.other n) post)
      simp [namesF, h1]

/-!
The claims.
-/

/-- C1 (amended): round-trip holds for every directory tree of regular
files and subdirectories whose entry names are well formed for this codec:
nonempty, within the name-length bound, free of `'/'` and NUL (as every
real filesystem name is), not `"."` or `".."` (which `pack` skips), and —
the amendment the counterexample forces — free of the delimiter byte `':'`,
with file sizes in the range of `off_t`.  Unpacking the archive produced by
packing such a tree recreates exactly the tree's directories and files with
byte-identical contents at their original relative paths, and returns the
working directory and depth counter to their starting values. -/
theorem c1_roundtrip_wf (e : Entry) (hw : wfE e = true) (hno : noOtherE e = true) :
    unpackLoopF (nframesE e) (packEntry e) initState
      = some (.ok { fs := entriesE (0, []) e, cwd := (0, []), depth := 1 }) :=
  decode_packEntry e hw (nframes_pos_of_noOther e hno)

/-- C1 (counterexample): the claim as stated fails for the tree consisting
of the single regular file named `a:b` with content `xy` — a legal
filesystem name.  `pack` emits `3:a:b2:xy`; the decoder's name read stops
at the `':'` inside the name, desynchronizes, creates a file named `a`
with empty content, then misreads `xy` as a length field and takes the
sentinel branch, ascending above the destination root.  The decode run
(with ample fuel, `c9_unpack_terminates` bounds it by the input length)
therefore does not reproduce the tree. -/
theorem c1_counterexample :
    unpackLoopF ((packEntry (Entry.file ['a', ':', 'b'] ['x', 'y'])).length + 1)
        (packEntry (Entry.file ['a', ':', 'b'] ['x', 'y'])) initState
      = some (.ok { fs := [(((0 : Nat), [['a']]), Node.file [])], cwd := (1, []), depth := 0 }) ∧
    ({ fs := [(((0 : Nat), [['a']]), Node.file [])], cwd := (1, []), depth := 0 } : UState)
      ≠ { fs := entriesE (0, []) (Entry.file ['a', ':', 'b'] ['x', 'y']),
          cwd := (0, []), depth := 1 } :=
  ⟨by decide, by decide⟩

/-- C1 (witness): a concrete well-formed tree — directory `d` containing
file `a` with content `hi` — decoded from its packed archive. -/
theorem c1_witness :
    wfE (Entry.dir ['d'] (Forest.cons (Entry.file ['a'] ['h', 'i']) Forest.nil)) = true ∧
    noOtherE (Entry.dir ['d'] (Forest.cons (Entry.file ['a'] ['h', 'i']) Forest.nil)) = true ∧
    unpackLoopF
        (nframesE (Entry.dir ['d'] (Forest.cons (Entry.file ['a'] ['h', 'i']) Forest.nil)))
        (packEntry (Entry.dir ['d'] (Forest.cons (Entry.file ['a'] ['h', 'i']) Forest.nil)))
        initState
      = some (.ok { fs := entriesE (0, [])
                      (Entry.dir ['d'] (Forest.cons (Entry.file ['a'] ['h', 'i']) Forest.nil)),
                    cwd := (0, []), depth := 1 }) :=
  ⟨by decide, by decide, c1_roundtrip_wf _ (by decide) (by decide)⟩

/-- C2 (amended): a directory frame is always followed by its children's
frames and then exactly one `0:` sentinel at the same nesting level (first
conjunct, the encoder's emission order); over any packed entry the
sentinel frames and directory frames are equinumerous (second conjunct);
and — amended to well-formed trees, since the counterexample's `':'`-name
desynchronizes the decoder — a full decode of a packed well-formed archive
returns the depth counter (and working directory) to their starting
values (third conjunct). -/
theorem c2_sentinel_wf :
    (∀ (n : Name) (cs : Forest),
      packEntry (.dir n cs)
        = decToString (n.length + 1) ++ ':' :: (n ++ '/' :: (packForest cs ++ ['0', ':']))) ∧
    (∀ (e : Entry),
      ((frameTagsE e).filter (fun t => isSentT t)).length
        = ((frameTagsE e).filter (fun t => isDirT t)).length) ∧
    (∀ (ts : Forest), wfF ts = true → 1 ≤ nframesF ts →
      unpackLoopF (nframesF ts) (packForest ts) initState
        = some (.ok { fs := entriesF (0, []) ts, cwd := (0, []), depth := 1 })) :=
  ⟨fun _ _ => rfl, sentBalanceE, decode_packForest⟩

/-- C2 (counterexample): decoding the archive packed from the top-level
sequence `[directory d (empty), file a:b content xy]` — whose directory
frame does have its matching sentinel — ends with depth 0, not the
starting depth 1: the `':'` in the file name desynchronizes the decoder
and the garbage frame `xy` is taken for a sentinel. -/
theorem c2_counterexample :
    unpackLoopF 20
        (packForest (Forest.cons (Entry.dir ['d'] Forest.nil)
          (Forest.cons (Entry.file ['a', ':', 'b'] ['x', 'y']) Forest.nil))) initState
      = some (.ok { fs := [(((0 : Nat), [['d']]), Node.dir), (((0 : Nat), [['a']]), Node.file [])],
                    cwd := (1, []), depth := 0 }) ∧
    (0 : Int) ≠ 1 :=
  ⟨by decide, by decide⟩

/-- C2 (witness): the three conjuncts at concrete inputs: the frame layout
of directory `d` with one file child, the sentinel/directory balance of
that entry, and a full decode returning depth to 1. -/
theorem c2_witness :
    packEntry (.dir ['d'] (Forest.cons (Entry.file ['a'] ['h']) Forest.nil))
      = decToString (['d'].length + 1)
          ++ ':' :: (['d'] ++ '/' :: (packForest (Forest.cons (Entry.file ['a'] ['h']) Forest.nil)
                ++ ['0', ':'])) ∧
    ((frameTagsE (Entry.dir ['d'] (Forest.cons (Entry.file ['a'] ['h']) Forest.nil))).filter
        (fun t => isSentT t)).length
      = ((frameTagsE (Entry.dir ['d'] (Forest.cons (Entry.file ['a'] ['h']) Forest.nil))).filter
        (fun t => isDirT t)).length ∧
    unpackLoopF
        (nframesF (Forest.cons (Entry.dir ['d'] Forest.nil) Forest.nil))
        (packForest (Forest.cons (Entry.dir ['d'] Forest.nil) Forest.nil)) initState
      = some (.ok { fs := entriesF (0, []) (Forest.cons (Entry.dir ['d'] Forest.nil) Forest.nil),
                    cwd := (0, []), depth := 1 }) :=
  ⟨c2_sentinel_wf.1 ['d'] (Forest.cons (Entry.file ['a'] ['h']) Forest.nil),
   c2_sentinel_wf.2.1 (Entry.dir ['d'] (Forest.cons (Entry.file ['a'] ['h']) Forest.nil)),
   c2_sentinel_wf.2.2 (Forest.cons (Entry.dir ['d'] Forest.nil) Forest.nil)
     (by decide) (by decide)⟩

/-- C3: length-field fidelity, read back through the decoder's own parsing
primitives.  For a file frame the first decimal field parses to exactly
the name's byte length, the name read of that declared length returns
exactly the name, and the second decimal field parses to exactly the
content's byte count with the content following verbatim.  For a
directory frame the first decimal field parses to the name's byte length
plus one, and the name read returns the name with its trailing
separator. -/
theorem c3_length_fidelity :
    (∀ (n : Name) (c : List Char), wfName n = true → c.length < 2 ^ 63 →
      atoi (next_block (packEntry (.file n c)) ':' 255).1 = n.length ∧
      next_block (next_block (packEntry (.file n c)) ':' 255).2 ':' n.length
        = (n, decToString c.length ++ ':' :: c) ∧
      atoi (decToString c.length) = c.length ∧
      next_block (decToString c.length ++ ':' :: c) ':' 255 = (decToString c.length, c)) ∧
    (∀ (n : Name) (cs : Forest), wfName n = true →
      atoi (next_block (packEntry (.dir n cs)) ':' 255).1 = n.length + 1 ∧
      (next_block (next_block (packEntry (.dir n cs)) ':' 255).2 ':' (n.length + 1)).1
        = n ++ ['/']) := by
  constructor
  · intro n c hw hc
    obtain ⟨hnil, hlen, hcol, hsl, hnul, _, _⟩ := wfName_spec n hw
    have harr : packEntry (.file n c)
        = decToString n.length ++ ':' :: (n ++ (decToString c.length ++ ':' :: c)) := by
      simp [packEntry]
    have h1 : next_block
        (decToString n.length ++ ':' :: (n ++ (decToString c.length ++ ':' :: c))) ':' 255
        = (decToString n.length, n ++ (decToString c.length ++ ':' :: c)) :=
      read_length_field n.length _ (by omega)
    have h2 : next_block (n ++ (decToString c.length ++ ':' :: c)) ':' n.length
        = (n, decToString c.length ++ ':' :: c) :=
      read_name n _ (fun x hx => fun hcon => hcol (hcon ▸ hx))
    have h3 : next_block (decToString c.length ++ ':' :: c) ':' 255
        = (decToString c.length, c) := by
      refine read_length_field c.length _ ?_
      calc c.length < 2 ^ 63 := hc
      _ < 10 ^ 19 := by norm_num
    rw [harr, h1]
    exact ⟨atoi_decToString n.length, h2, atoi_decToString c.length, h3⟩
  · intro n cs hw
    obtain ⟨hnil, hlen, hcol, hsl, hnul, _, _⟩ := wfName_spec n hw
    have harr : packEntry (.dir n cs)
        = decToString (n.length + 1)
            ++ ':' :: ((n ++ ['/']) ++ (packForest cs ++ ['0', ':'])) := by
      simp [packEntry]
    have h1 : next_block
        (decToString (n.length + 1) ++ ':' :: ((n ++ ['/']) ++ (packForest cs ++ ['0', ':']))) ':' 255
        = (decToString (n.length + 1), (n ++ ['/']) ++ (packForest cs ++ ['0', ':'])) :=
      read_length_field (n.length + 1) _ (by omega)
    have hns : ∀ x ∈ n ++ ['/'], x ≠ ':' := by
      intro x hx
      rcases List.mem_append.mp hx with h | h
      · exact fun hcon => hcol (hcon ▸ h)
      · simp at h; subst h; decide
    have h2 : next_block ((n ++ ['/']) ++ (packForest cs ++ ['0', ':'])) ':' (n.length + 1)
        = (n ++ ['/'], packForest cs ++ ['0', ':']) := by
      have := read_name (n ++ ['/']) (packForest cs ++ ['0', ':']) hns
      simpa using this
    rw [harr, h1]
    refine ⟨atoi_decToString (n.length + 1), ?_⟩
    rw [h2]

/-- C3 (witness): the length fields of the packed file `a` (content `hi`)
and packed directory `d` parse back to the actual byte counts. -/
theorem c3_witness :
    (atoi (next_block (packEntry (.file ['a'] ['h', 'i'])) ':' 255).1 = ['a'].length ∧
      next_block (next_block (packEntry (.file ['a'] ['h', 'i'])) ':' 255).2 ':' ['a'].length
        = (['a'], decToString ['h', 'i'].length ++ ':' :: ['h', 'i']) ∧
      atoi (decToString ['h', 'i'].length) = ['h', 'i'].length ∧
      next_block (decToString ['h', 'i'].length ++ ':' :: ['h', 'i']) ':' 255
        = (decToString ['h', 'i'].length, ['h', 'i'])) ∧
    (atoi (next_block (packEntry (.dir ['d'] Forest.nil)) ':' 255).1 = ['d'].length + 1 ∧
      (next_block (next_block (packEntry (.dir ['d'] Forest.nil)) ':' 255).2
          ':' (['d'].length + 1)).1 = ['d'] ++ ['/']) :=
  ⟨c3_length_fidelity.1 ['a'] ['h', 'i'] (by decide) (by decide),
   c3_length_fidelity.2 ['d'] Forest.nil (by decide)⟩

/-- C4 (amended): the push/pop discipline holds for single-component
(slash-free, non-`"."`/`".."`) directory names — which covers every
recursive call, whose names come from `readdir` — so `pack` then restores
the working directory; and a full decode of a well-formed packed archive
restores the decoder's working directory and depth.  The counterexample
shows the original claim's "for every path argument p" fails for
multi-component arguments such as `a/b`, where `chdir(fn)` descends two
levels but the single `chdir("..")` ascends one. -/
theorem c4_cwd_discipline_wf :
    (∀ (e : Entry) (p : Key), argOkE e = true → packCwdE e p = p) ∧
    (∀ (ts : Forest), wfF ts = true → 1 ≤ nframesF ts →
      unpackLoopF (nframesF ts) (packForest ts) initState
        = some (.ok { fs := entriesF (0, []) ts, cwd := (0, []), depth := 1 })) :=
  ⟨packCwdE_restore, decode_packForest⟩

/-- C4 (counterexample): packing the directory argument `a/b` (an empty
directory reached through component `a`) leaves the working directory at
`a`, not where it started. -/
theorem c4_counterexample :
    packCwdE (Entry.dir ['a', '/', 'b'] Forest.nil) (0, []) = ((0 : Nat), [['a']]) ∧
    ((0 : Nat), [['a']]) ≠ ((0 : Nat), ([] : List Name)) :=
  ⟨by decide, by decide⟩

/-- C4 (witness): packing the single-component directory `d` (containing
file `a`) from a nested working directory restores it, and decoding that
archive restores the decoder's working directory and depth. -/
theorem c4_witness :
    packCwdE (Entry.dir ['d'] (Forest.cons (Entry.file ['a'] ['h']) Forest.nil))
        (0, [['x']]) = ((0 : Nat), [['x']]) ∧
    unpackLoopF
        (nframesF (Forest.cons (Entry.dir ['d'] Forest.nil) Forest.nil))
        (packForest (Forest.cons (Entry.dir ['d'] Forest.nil) Forest.nil)) initState
      = some (.ok { fs := entriesF (0, []) (Forest.cons (Entry.dir ['d'] Forest.nil) Forest.nil),
                    cwd := (0, []), depth := 1 }) :=
  ⟨c4_cwd_discipline_wf.1 (Entry.dir ['d'] (Forest.cons (Entry.file ['a'] ['h']) Forest.nil))
      (0, [['x']]) (by decide),
   c4_cwd_discipline_wf.2 (Forest.cons (Entry.dir ['d'] Forest.nil) Forest.nil)
      (by decide) (by decide)⟩

/-- C5 (code bug): the decoder does not keep `next_block`'s writes inside
the 255-byte destination buffers.  On an archive beginning `300:` followed
by 300 non-delimiter bytes, the length field parses to 300, `unpack`
passes it unchecked as `max_reads` for the name read into `fn[255]`
(src/archive.c:144), and `next_block` then writes payload bytes up to
index 299 and the NUL terminator at index 300 — far beyond the buffer.
Even the length-field read itself (`max_reads = NAME_MAX = 255` into
`buff[255]`) writes its NUL terminator at index 255, one past the end,
whenever 255 bytes arrive without a delimiter.  Valid indices are
`0..254`. -/
theorem c5_next_block_oob :
    (next_block ('3' :: '0' :: '0' :: ':' :: List.replicate 300 'a') ':' 255).1
      = ['3', '0', '0'] ∧
    atoi ['3', '0', '0'] = 300 ∧
    299 ∈ nbWrites (List.replicate 300 'a') ':' 300 ∧
    300 ∈ nbWrites (List.replicate 300 'a') ':' 300 ∧
    255 ∈ nbWrites (List.replicate 255 'a') ':' 255 ∧
    ¬ (255 < 255) ∧ ¬ (299 < 255) ∧ ¬ (300 < 255) :=
  ⟨by decide, by decide, by decide, by decide, by decide, by decide, by decide, by decide⟩

/-- C6 (code bug): unpacking the archive whose only record is the sentinel
`0:` executes `chdir("..")` and `depth--` with nothing on the stack: the
run terminates normally but with the working directory one level above the
destination root and the depth counter 0, below its starting value 1 —
the underflow the specification says must not happen. -/
theorem c6_sentinel_underflow :
    unpackLoopF 1 ['0', ':'] initState
      = some (.ok { fs := [], cwd := (1, []), depth := 0 }) ∧
    (1 : Nat) ≠ 0 ∧ (0 : Int) < 1 :=
  ⟨by decide, by decide, by decide⟩

/-- C7: a non-regular entry among siblings contributes no frame — the
archive bytes are identical to those of the sibling sequence without it —
its name is reported on the warning stream, and unpacking the archive
recreates exactly the remaining siblings' objects (the skipped entry is
absent, the others intact). -/
theorem c7_skip_semantics (pre post : Forest) (n : Name)
    (hw : wfF (Forest.append pre (.cons (.other n) post)) = true)
    (h1 : 1 ≤ nframesF (Forest.append pre post)) :
    packForest (Forest.append pre (.cons (.other n) post))
      = packForest (Forest.append pre post) ∧
    n ∈ packWarnF (Forest.append pre (.cons (.other n) post)) ∧
    unpackLoopF (nframesF (Forest.append pre post))
        (packForest (Forest.append pre post)) initState
      = some (.ok { fs := entriesF (0, []) (Forest.append pre post),
                    cwd := (0, []), depth := 1 }) := by
  refine ⟨?_, ?_, ?_⟩
  · rw [packForest_append, packForest_append]
    show packForest pre ++ (packEntry (.other n) ++ packForest post) = _
    simp [packEntry]
  · rw [packWarnF_append]
    refine List.mem_append.mpr (Or.inr ?_)
    show n ∈ packWarnE (.other n) ++ packWarnF post
    simp [packWarnE]
  · exact decode_packForest _ (wfF_drop_other n pre post hw) h1

/-- C7 (witness): siblings `file a`, skipped entry `s`, `file b`. -/
theorem c7_witness :
    packForest (Forest.append (Forest.cons (Entry.file ['a'] ['h']) Forest.nil)
        (.cons (.other ['s']) (Forest.cons (Entry.file ['b'] ['k']) Forest.nil)))
      = packForest (Forest.append (Forest.cons (Entry.file ['a'] ['h']) Forest.nil)
          (Forest.cons (Entry.file ['b'] ['k']) Forest.nil)) ∧
    ['s'] ∈ packWarnF (Forest.append (Forest.cons (Entry.file ['a'] ['h']) Forest.nil)
        (.cons (.other ['s']) (Forest.cons (Entry.file ['b'] ['k']) Forest.nil))) ∧
    unpackLoopF
        (nframesF (Forest.append (Forest.cons (Entry.file ['a'] ['h']) Forest.nil)
          (Forest.cons (Entry.file ['b'] ['k']) Forest.nil)))
        (packForest (Forest.append (Forest.cons (Entry.file ['a'] ['h']) Forest.nil)
          (Forest.cons (Entry.file ['b'] ['k']) Forest.nil))) initState
      = some (.ok { fs := entriesF (0, [])
                      (Forest.append (Forest.cons (Entry.file ['a'] ['h']) Forest.nil)
                        (Forest.cons (Entry.file ['b'] ['k']) Forest.nil)),
                    cwd := (0, []), depth := 1 }) :=
  c7_skip_semantics (Forest.cons (Entry.file ['a'] ['h']) Forest.nil)
    (Forest.cons (Entry.file ['b'] ['k']) Forest.nil) ['s'] (by decide) (by decide)

/-- C8: `mkpath` is idempotent-and-creating for the whole path.  Along the
component prefixes ending at each `'/'` of the pathname: if every such
prefix either already exists as a directory or is absent with its `mkdir`
succeeding, the call returns 0 having created exactly the absent prefixes
as directories (in order); and a `-1` return happens only when some such
prefix exists as a non-directory or is absent with its `mkdir` failing. -/
theorem c8_mkpath_spec (mkOk : Key → Bool) (fs : FSL) (base : Key) (p : Name) :
    ((∀ k ∈ visitKeys base [] (splitSlash p).dropLast,
        fsGet fs k = some .dir ∨ (fsGet fs k = none ∧ mkOk k = true)) →
      mkpath mkOk fs base p
        = some (fs ++ missingDirs fs (visitKeys base [] (splitSlash p).dropLast))) ∧
    (mkpath mkOk fs base p = none →
      ∃ k ∈ visitKeys base [] (splitSlash p).dropLast,
        (∃ ct, fsGet fs k = some (.file ct)) ∨ (fsGet fs k = none ∧ mkOk k = false)) :=
  ⟨fun h => mkpathGo_ok mkOk base _ [] fs h,
   fun h => mkpathGo_fail mkOk base _ [] fs h⟩

/-- C8 (witness): creating `a/b/` where ancestor `a` already exists as a
directory succeeds, creating exactly the missing component `a/b`. -/
theorem c8_witness :
    mkpath (fun _ => true) [(((0 : Nat), [['a']]), Node.dir)] (0, []) ['a', '/', 'b', '/']
      = some ([(((0 : Nat), [['a']]), Node.dir)]
          ++ missingDirs [(((0 : Nat), [['a']]), Node.dir)]
              (visitKeys (0, []) [] (splitSlash ['a', '/', 'b', '/']).dropLast)) ∧
    missingDirs [(((0 : Nat), [['a']]), Node.dir)]
        (visitKeys (0, []) [] (splitSlash ['a', '/', 'b', '/']).dropLast)
      = [(((0 : Nat), [['a'], ['b']]), Node.dir)] :=
  ⟨(c8_mkpath_spec (fun _ => true) [(((0 : Nat), [['a']]), Node.dir)] (0, [])
      ['a', '/', 'b', '/']).1 (by decide),
   by decide⟩

/-- C9: the frame loop of `unpack` terminates on every finite source:
fuel `input.length + 1` always yields a result (each iteration on a
nonempty source consumes at least one byte); on an exhausted source
`next_block` reads nothing, the resulting zero-length frame takes the
sentinel branch, and the end-of-file peek then exits the loop. -/
theorem c9_unpack_terminates :
    (∀ (input : List Char) (st : UState),
      (unpackLoopF (input.length + 1) input st).isSome = true) ∧
    next_block [] ':' 255 = ([], []) ∧
    (∀ (st : UState), unpackStep [] st
      = some ([], { st with cwd := upDir st.cwd, depth := st.depth - 1 })) :=
  ⟨fun input st => unpackLoopF_total input.length input st le_rfl,
   nbGo_nil ':' 255, unpackStep_nil⟩

/-- C10: in a packed well-formed archive the declared name length of every
frame, as the decoder's own frame scan reads them back, is the encoder's
frame sequence: at least 1 for every file frame, at least 2 for every
directory frame, and 0 exactly at the end-of-directory sentinels — so the
decoder's length-zero test discriminates sentinels unambiguously. -/
theorem c10_zero_frame_discriminator (ts : Forest) (hw : wfF ts = true) :
    scanFrames (nframesF ts) (packForest ts) = (frameTagsF ts).map declOf ∧
    (∀ t ∈ frameTagsF ts, (declOf t = 0 ↔ t = .sentT)) ∧
    (∀ t ∈ frameTagsF ts, ∀ l, t = .fileT l → 1 ≤ l) ∧
    (∀ t ∈ frameTagsF ts, ∀ l, t = .dirT l → 2 ≤ l) := by
  refine ⟨?_, ?_, ?_, ?_⟩
  · have h := scanF ts 0 [] hw
    simpa [scanFrames] using h
  · intro t ht
    rcases tagsOkF ts hw t ht with ⟨l, rfl, hl⟩ | ⟨l, rfl, hl⟩ | rfl
    · constructor
      · intro h0
        simp only [declOf] at h0
        omega
      · intro hcon
        simp at hcon
    · constructor
      · intro h0
        simp only [declOf] at h0
        omega
      · intro hcon
        simp at hcon
    · simp [declOf]
  · intro t ht l hl
    subst hl
    rcases tagsOkF ts hw _ ht with ⟨l', heq, hl'⟩ | ⟨l', heq, _⟩ | heq
    · injection heq with h
      omega
    · simp at heq
    · simp at heq
  · intro t ht l hl
    subst hl
    rcases tagsOkF ts hw _ ht with ⟨l', heq, _⟩ | ⟨l', heq, hl'⟩ | heq
    · simp at heq
    · injection heq with h
      omega
    · simp at heq

/-- C10 (witness): for the sequence `[directory d containing file a]` the
scan equals the encoder's declared lengths, and the concrete sentinel and
directory tags test as claimed. -/
theorem c10_witness :
    scanFrames (nframesF (Forest.cons (Entry.dir ['d']
          (Forest.cons (Entry.file ['a'] ['h']) Forest.nil)) Forest.nil))
        (packForest (Forest.cons (Entry.dir ['d']
          (Forest.cons (Entry.file ['a'] ['h']) Forest.nil)) Forest.nil))
      = ((frameTagsF (Forest.cons (Entry.dir ['d']
          (Forest.cons (Entry.file ['a'] ['h']) Forest.nil)) Forest.nil)).map declOf) ∧
    (declOf FrameTag.sentT = 0 ↔ (FrameTag.sentT : FrameTag) = FrameTag.sentT) ∧
    (declOf (FrameTag.dirT 2) = 0 ↔ (FrameTag.dirT 2 : FrameTag) = FrameTag.sentT) :=
  ⟨(c10_zero_frame_discriminator _ (by decide)).1,
   (c10_zero_frame_discriminator (Forest.cons (Entry.dir ['d']
        (Forest.cons (Entry.file ['a'] ['h']) Forest.nil)) Forest.nil) (by decide)).2.1
      FrameTag.sentT (by decide),
   (c10_zero_frame_discriminator (Forest.cons (Entry.dir ['d']
        (Forest.cons (Entry.file ['a'] ['h']) Forest.nil)) Forest.nil) (by decide)).2.1
      (FrameTag.dirT 2) (by decide)⟩
